import Mathlib

/-!
# Snake game: body chain, occupancy set, pickup spawner and tick controller

A shallow embedding of `src/main.cpp`.

* `int` values are modelled by `Int`; the development concerns runs in which no
  signed `int` computation overflows (board coordinates stay within `-1 .. 40`).
* A `Node*` is an address into the list of nodes allocated by `new`, in
  allocation order; `nullptr` is `none`.  Reading through a pointer that does
  not address an allocated node has no defined behaviour in the source and is
  modelled by the result `none`.
* `rand()` is a stream `draws : Nat → Nat`; the number of calls made so far is
  carried in the state.
* The drawing calls only read the state and are left out of the transition function.
-/

namespace SnakeGame

/-! ## Data model -/

/-- The `enum class GameState`. -/
inductive GameState where
  | starting
  | running
  | paused
  | gameOver
deriving DecidableEq, Repr

/-- The `enum class Directions`. -/
inductive Directions where
  | up
  | right
  | down
  | left
deriving DecidableEq, Repr

/-- The global vector `compass`. -/
def compass : List Directions :=
  [Directions.right, Directions.down, Directions.left, Directions.up]

/-- The function `inRange(max, min, value)`. -/
def inRange (max min value : Int) : Bool :=
  decide (value ≥ min) && decide (value ≤ max)

/-- A grid cell, `std::pair<int, int>`: (column, row). -/
abbrev Pos := Int × Int

/-- The class `Node`: two links and a position. -/
structure Node where
  next : Option Nat
  prev : Option Nat
  position : Pos
deriving DecidableEq, Repr

/-- The simulation fields of the class `Snake`; `heap` holds the nodes the snake
allocated with `new`, the node with address `i` at index `i`. -/
structure Snake where
  heap : List Node
  head : Nat
  tail : Nat
  direction : Directions
  directionIndex : Int
  eaten : Bool
deriving DecidableEq, Repr

/-- The assignment `p->next = v` on an allocated node. -/
def setNext (heap : List Node) (p : Nat) (v : Option Nat) : List Node :=
  match heap[p]? with
  | none => heap
  | some nd => heap.set p { nd with next := v }

/-- The assignment `p->prev = v` on an allocated node. -/
def setPrev (heap : List Node) (p : Nat) (v : Option Nat) : List Node :=
  match heap[p]? with
  | none => heap
  | some nd => heap.set p { nd with prev := v }

/-- The assignment `p->position = v` on an allocated node. -/
def setPosition (heap : List Node) (p : Nat) (v : Pos) : List Node :=
  match heap[p]? with
  | none => heap
  | some nd => heap.set p { nd with position := v }

/-! ## The body chain -/

/-- The constructor `Snake::Snake` (named `new`, since `Snake.Snake` would shadow
the type): the head node is allocated first (address 0), then the tail node one
column to its left (address 1), then the two are linked. -/
def Snake.new (startingPos : Pos) : Snake :=
  let heap0 : List Node := []
  let head := heap0.length
  let heap1 := heap0 ++ [Node.mk none none startingPos]
  let tail := heap1.length
  let heap2 := heap1 ++ [Node.mk none (some head) (startingPos.1 - 1, startingPos.2)]
  let heap3 := setNext heap2 head (some tail)
  let heap4 := setPrev heap3 tail (some head)
  { heap := heap4, head := head, tail := tail,
    direction := Directions.right, directionIndex := 0, eaten := false }

/-- The accessor `Snake::getHeadPos`. -/
def Snake.getHeadPos (s : Snake) : Option Pos :=
  (s.heap[s.head]?).map Node.position

/-- The accessor `Snake::getTailPos`. -/
def Snake.getTailPos (s : Snake) : Option Pos :=
  (s.heap[s.tail]?).map Node.position

/-- The method `Snake::setEaten`. -/
def Snake.setEaten (s : Snake) : Snake :=
  { s with eaten := true }

/-- The method `Snake::addNode`: a new node with the tail's position is allocated
and linked in behind the tail. -/
def Snake.addNode (s : Snake) : Option Snake :=
  match s.heap[s.tail]? with
  | none => none
  | some t =>
    let newNode := s.heap.length
    let heap1 := s.heap ++ [Node.mk none (some s.tail) t.position]
    let heap2 := setNext heap1 s.tail (some newNode)
    let heap3 := setPrev heap2 newNode (some s.tail)
    some { s with heap := heap3, tail := newNode }

/-- The element `compass[i]` for an `int` index; an index outside the vector has
no defined behaviour. -/
def compassAt (i : Int) : Option Directions :=
  if 0 ≤ i then compass[i.toNat]? else none

/-- The method `Snake::nextDirection`. -/
def Snake.nextDirection (s : Snake) : Option Snake :=
  let directionIndex := s.directionIndex + 1
  match compassAt (Int.tmod directionIndex 4) with
  | none => none
  | some dir =>
    some { s with direction := dir, directionIndex := Int.tmod directionIndex 4 }

/-- The method `Snake::prevDirection`. -/
def Snake.prevDirection (s : Snake) : Option Snake :=
  let directionIndex := s.directionIndex - 1
  match compassAt (Int.tmod (directionIndex + 4) 4) with
  | none => none
  | some dir =>
    some { s with direction := dir, directionIndex := Int.tmod (directionIndex + 4) 4 }

/-- The `while` loop of `Snake::update`: while `runner` and `runner->prev` are not
null, `runner` takes the position of `runner->prev` and steps back to it.  The
result is the heap and the value of `runner` at loop exit.  `fuel` bounds the
number of iterations. -/
def updateLoop : Nat → List Node → Option Nat → Option (List Node × Option Nat)
  | _, heap, none => some (heap, none)
  | fuel, heap, some r =>
    match heap[r]? with
    | none => none
    | some nd =>
      match nd.prev with
      | none => some (heap, some r)
      | some p =>
        match fuel with
        | 0 => none
        | fuel + 1 =>
          match heap[p]? with
          | none => none
          | some pn => updateLoop fuel (setPosition heap r pn.position) (some p)

/-- The `switch` of `Snake::update`: the cell one step from `p` in direction `d`. -/
def moveHead (d : Directions) (p : Pos) : Pos :=
  match d with
  | Directions.up => (p.1, p.2 - 1)
  | Directions.down => (p.1, p.2 + 1)
  | Directions.left => (p.1 - 1, p.2)
  | Directions.right => (p.1 + 1, p.2)

/-- The method `Snake::update`.  The loop gets as many iterations as there are
allocated nodes: a walk along `prev` that is longer visits a node twice, and
then the source loop does not end. -/
def Snake.update (s : Snake) : Option Snake :=
  let start : Option (Option Nat) :=
    if s.eaten then (s.heap[s.tail]?).map Node.prev else some (some s.tail)
  match start with
  | none => none
  | some runner0 =>
    match updateLoop s.heap.length s.heap runner0 with
    | none => none
    | some (_, none) => none
    | some (heap1, some runner) =>
      match heap1[runner]? with
      | none => none
      | some nd =>
        some { s with heap := setPosition heap1 runner (moveHead s.direction nd.position),
                      eaten := false }

/-- The positions met when following `next` from `p`, as `Snake::draw` does from
the head, for at most `fuel` nodes. -/
def walkCells (heap : List Node) : Nat → Option Nat → List Pos
  | 0, _ => []
  | _ + 1, none => []
  | fuel + 1, some p =>
    match heap[p]? with
    | none => []
    | some nd => nd.position :: walkCells heap fuel nd.next

/-- The cells of the chain's segments, head to tail. -/
def Snake.cells (s : Snake) : List Pos :=
  walkCells s.heap s.heap.length (some s.head)

/-! ## The pickup spawner -/

/-- The distance between neighbouring `float` values at `n`: 1 below `2^24`, and
doubling with each further binary digit of `n`.  The first argument bounds the
number of halvings; `n` itself is enough. -/
def floatSpacing : Nat → Nat → Nat
  | 0, _ => 1
  | fuel + 1, n => if n < 2 ^ 24 then 1 else 2 * floatSpacing fuel (n / 2)

/-- The cast `(float) n` of a non-negative `int`, as the integer it denotes: `n`
rounded to the 24 significant binary digits of a `float`, to the nearest value, a
tie going to the even significand. -/
def floatRound (n : Nat) : Nat :=
  let u := floatSpacing n n
  let q := n / u
  let r := n % u
  if 2 * r < u ∨ (2 * r = u ∧ q % 2 = 0) then q * u else (q + 1) * u

/-- An `int` converted to `float` and back to `int`, as happens to each coordinate
of a re-drawn candidate in `spawnApple`. -/
def viaFloat (v : Int) : Int :=
  if 0 ≤ v then (floatRound v.toNat : Int) else -(floatRound (-v).toNat : Int)

/-- The `while` loop of `spawnApple`: `proposedPos` is re-drawn while it is in
`occupied`.  `rng` counts the calls of `rand()` made so far; the result is the
accepted cell and the new count.  `fuel` bounds the number of re-draws. -/
def spawnAppleLoop (width height : Int) (occupied : Finset Pos) (draws : Nat → Nat) :
    Nat → Nat → Pos → Option (Pos × Nat)
  | 0, rng, proposedPos =>
    if proposedPos ∈ occupied then none else some (proposedPos, rng)
  | fuel + 1, rng, proposedPos =>
    if proposedPos ∈ occupied then
      spawnAppleLoop width height occupied draws fuel (rng + 2)
        (viaFloat (Int.tmod (draws rng) width), viaFloat (Int.tmod (draws (rng + 1)) height))
    else some (proposedPos, rng)

/-- The function `spawnApple`.  A remainder by zero has no defined behaviour. -/
def spawnApple (fuel : Nat) (width height : Int) (occupied : Finset Pos)
    (draws : Nat → Nat) (rng : Nat) : Option (Pos × Nat) :=
  if width = 0 ∨ height = 0 then none
  else
    spawnAppleLoop width height occupied draws fuel (rng + 2)
      (Int.tmod (draws rng) width, Int.tmod (draws (rng + 1)) height)

/-! ## The tick controller -/

/-- The local `height` of `main`, in pixels. -/
def height : Int := 900

/-- The local `width` of `main`, in pixels. -/
def width : Int := 1800

/-- The local `moveEvery` of `main`. -/
def moveEvery : Int := 20

/-- The local `cell` of `main`: the size of a cell in pixels. -/
def cell : Int × Int := (45, 45)

/-- The local `numCells` of `main`; both `float` quotients are exact, 40 and 20. -/
def numCells : Int × Int := (width / cell.1, height / cell.2)

/-- The number of `rand()` calls `main` makes for `worldGrid` before the first
pickup is placed: one per cell, 800. -/
def worldGridDraws : Nat := (numCells.1 * numCells.2).toNat

/-- The values of `IsKeyPressed` in one frame, for the keys `main` reads. -/
structure Keys where
  enter : Bool
  right : Bool
  d : Bool
  left : Bool
  a : Bool
  p : Bool
deriving DecidableEq, Repr

/-- The simulation locals of `main`: `state`, `snake`, `occupied`, `apple`, `count`,
`cachedDirection`, and the number of `rand()` calls made so far. -/
structure Game where
  state : GameState
  snake : Snake
  occupied : Finset Pos
  apple : Pos
  count : Int
  cachedDirection : Option Int
  rng : Nat

/-- Lines 286–294 of `main`: the snake, the seeding of `occupied`, the first
pickup, `count` and `cachedDirection`; `state` is `starting`. -/
def initGame (fuel : Nat) (draws : Nat → Nat) : Option Game :=
  let snake := Snake.new (numCells.1 / 2, numCells.2 / 2)
  let occupied0 : Finset Pos := ∅
  let occupied1 := insert (width / 2, height / 2) occupied0
  let occupied2 := insert ((width / 2) - 1, height / 2) occupied1
  match spawnApple fuel numCells.1 numCells.2 occupied2 draws worldGridDraws with
  | none => none
  | some (apple, rng) =>
    some { state := GameState.starting, snake := snake, occupied := occupied2, apple := apple,
           count := 1, cachedDirection := none, rng := rng }

/-- Lines 326–333: the buffered turn is applied to the snake. -/
def applyCachedDirection (cachedDirection : Option Int) (snake : Snake) : Option Snake :=
  match cachedDirection with
  | some v => if v = 1 then snake.nextDirection else snake.prevDirection
  | none => some snake

/-- Lines 335–340: when the head is on the pickup, a new pickup is spawned and the
snake is told it ate and gets a node.  The result is the local `eaten`, the pickup,
the `rand()` count and the snake. -/
def eatApple (fuel : Nat) (board : Int × Int) (draws : Nat → Nat) (occupied : Finset Pos)
    (apple : Pos) (rng : Nat) (snake : Snake) : Option (Bool × Pos × Nat × Snake) :=
  match snake.getHeadPos with
  | none => none
  | some headPos =>
    if headPos = apple then
      match spawnApple fuel board.1 board.2 occupied draws rng with
      | none => none
      | some (apple1, rng1) =>
        match snake.setEaten.addNode with
        | none => none
        | some snake1 => some (true, apple1, rng1, snake1)
    else some (false, apple, rng, snake)

/-- The condition of lines 342–344, for a board of `board.1` by `board.2` cells. -/
def collision (board : Int × Int) (occupied : Finset Pos) (headPos : Pos) : Bool :=
  decide (headPos ∈ occupied) || !inRange (board.1 - 1) 0 headPos.1 ||
    !inRange (board.2 - 1) 0 headPos.2

/-- Lines 347–350: the head's cell is inserted, and the tail's cell is erased
unless the local `eaten` is set. -/
def updateOccupied (occupied : Finset Pos) (eaten : Bool) (snake : Snake) :
    Option (Finset Pos) :=
  match snake.getHeadPos with
  | none => none
  | some headPos =>
    let occupied1 := insert headPos occupied
    if !eaten then
      match snake.getTailPos with
      | none => none
      | some tailPos => some (occupied1.erase tailPos)
    else some occupied1

/-- Lines 325–351: the body of `if (!(count % moveEvery))`, for a board of
`board.1` by `board.2` cells (the value of `numCells`). -/
def tick (fuel : Nat) (board : Int × Int) (draws : Nat → Nat) (g : Game) : Option Game :=
  match applyCachedDirection g.cachedDirection g.snake with
  | none => none
  | some snake1 =>
    match eatApple fuel board draws g.occupied g.apple g.rng snake1 with
    | none => none
    | some (eaten, apple, rng, snake2) =>
      match snake2.update with
      | none => none
      | some snake3 =>
        match snake3.getHeadPos with
        | none => none
        | some headPos =>
          let state := if collision board g.occupied headPos then GameState.gameOver else g.state
          match updateOccupied g.occupied eaten snake3 with
          | none => none
          | some occupied =>
            some { state := state, snake := snake3, occupied := occupied, apple := apple,
                   count := 1, cachedDirection := none, rng := rng }

/-- Lines 319–323: the turn keys overwrite the buffered turn. -/
def readTurnKeys (keys : Keys) (cachedDirection : Option Int) : Option Int :=
  if keys.right || keys.d then some 1
  else if keys.left || keys.a then some (-1)
  else cachedDirection

/-- One iteration of the `while (!WindowShouldClose())` loop of `main`: the
`switch (state)` of lines 299–379. -/
def frame (fuel : Nat) (board : Int × Int) (draws : Nat → Nat) (keys : Keys) (g : Game) :
    Option Game :=
  match g.state with
  | GameState.starting =>
    some (if keys.enter then { g with state := GameState.running } else g)
  | GameState.running =>
    let g1 := { g with cachedDirection := readTurnKeys keys g.cachedDirection }
    let g2 : Option Game :=
      if Int.tmod g1.count moveEvery = 0 then tick fuel board draws g1
      else some { g1 with count := g1.count + 1 }
    match g2 with
    | none => none
    | some g3 => some (if keys.p then { g3 with state := GameState.paused } else g3)
  | GameState.paused =>
    some (if keys.p then { g with state := GameState.running } else g)
  | GameState.gameOver => some g

/-- The frames of `main` run one after the other on the key readings `inputs`. -/
def runFrames (fuel : Nat) (board : Int × Int) (draws : Nat → Nat) :
    List Keys → Game → Option Game
  | [], g => some g
  | keys :: rest, g =>
    match frame fuel board draws keys g with
    | none => none
    | some g1 => runFrames fuel board draws rest g1

/-- The whole of `main` up to the end of the frames with key readings `inputs`. -/
def runMain (fuel : Nat) (draws : Nat → Nat) (inputs : List Keys) : Option Game :=
  match initGame fuel draws with
  | none => none
  | some g => runFrames fuel numCells draws inputs g

/-- The states `main` can be in at the end of a frame (or before the first), with
`rand()` returning the values of `draws`. -/
inductive Reachable (draws : Nat → Nat) : Game → Prop where
  | init (fuel : Nat) (g : Game) : initGame fuel draws = some g → Reachable draws g
  | step (fuel : Nat) (keys : Keys) (g g1 : Game) :
      Reachable draws g → frame fuel numCells draws keys g = some g1 → Reachable draws g1

/-- No key pressed. -/
def noKeys : Keys :=
  { enter := false, right := false, d := false, left := false, a := false, p := false }

/-! ## Well-formed chains -/

/-- The address of the first entry of `segs`, and `nx` when there is none. -/
def firstAddr (segs : List (Nat × Pos)) (nx : Option Nat) : Option Nat :=
  match segs with
  | [] => nx
  | seg :: _ => some seg.1

/-- The address of the last entry of `segs`, and `p` when there is none. -/
def lastAddr : List (Nat × Pos) → Option Nat → Option Nat
  | [], p => p
  | seg :: rest, _ => lastAddr rest (some seg.1)

/-- The nodes at the addresses of `segs`, in this order, form a doubly linked run
in `heap`: each node's `next` is the address of the entry after it (`nx` for the
last), its `prev` the address of the entry before it (`p` for the first), and its
`position` the cell of its entry. -/
def Linked (heap : List Node) : Option Nat → List (Nat × Pos) → Option Nat → Prop
  | _, [], _ => True
  | p, seg :: rest, nx =>
    heap[seg.1]? = some (Node.mk (firstAddr rest nx) p seg.2) ∧ Linked heap (some seg.1) rest nx

/-- Whether the nodes are so linked can be computed. -/
instance Linked.decide (heap : List Node) :
    (p : Option Nat) → (segs : List (Nat × Pos)) → (nx : Option Nat) →
      Decidable (Linked heap p segs nx)
  | _, [], _ => isTrue trivial
  | _, seg :: rest, nx =>
    have := Linked.decide heap (some seg.1) rest nx
    inferInstanceAs (Decidable (_ ∧ _))

/-- The snake is a well-formed chain whose segments are, head to tail, the entries
(address, cell) of `segs`: the addresses are distinct, the first is `head` and
its node has no `prev`, the last is `tail` and its node has no `next`, and the
nodes are doubly linked in this order. -/
structure IsChain (s : Snake) (segs : List (Nat × Pos)) : Prop where
  nodup : (segs.map Prod.fst).Nodup
  head : firstAddr segs none = some s.head
  tail : lastAddr segs none = some s.tail
  linked : Linked s.heap none segs none

/-- Whether the snake is a given chain can be computed. -/
instance IsChain.decide (s : Snake) (segs : List (Nat × Pos)) : Decidable (IsChain s segs) :=
  decidable_of_iff ((segs.map Prod.fst).Nodup ∧ firstAddr segs none = some s.head ∧
      lastAddr segs none = some s.tail ∧ Linked s.heap none segs none)
    ⟨fun h => ⟨h.1, h.2.1, h.2.2.1, h.2.2.2⟩, fun h => ⟨h.1, h.2, h.3, h.4⟩⟩

/-- Each entry of `segs` gets the cell of the entry before it, the first one `c`. -/
def shiftFrom (c : Pos) : List (Nat × Pos) → List (Nat × Pos)
  | [] => []
  | seg :: rest => (seg.1, c) :: shiftFrom seg.2 rest

/-- The cell of the first entry of `segs`, and `c` when there is none. -/
def firstCell (segs : List (Nat × Pos)) (c : Pos) : Pos :=
  match segs with
  | [] => c
  | seg :: _ => seg.2

/-- The cell of the last entry of `segs`, and `c` when there is none. -/
def lastCell : List (Nat × Pos) → Pos → Pos
  | [], c => c
  | seg :: rest, _ => lastCell rest seg.2

/-! ## Candidates of the spawner -/

/-- The `k`-th candidate of the stream in the words of the spawner's contract: the
`k`-th pair of draws from call `rng` on, the first reduced modulo `width` to a
column, the second modulo `height` to a row. -/
def candidate (width height : Int) (draws : Nat → Nat) (rng k : Nat) : Pos :=
  (Int.tmod (draws (rng + 2 * k)) width, Int.tmod (draws (rng + 2 * k + 1)) height)

/-- The `k`-th cell `spawnApple` proposes: the first is the first candidate, and
each later one is a candidate whose coordinates went through `float`. -/
def proposed (width height : Int) (draws : Nat → Nat) (rng : Nat) : Nat → Pos
  | 0 => candidate width height draws rng 0
  | k + 1 =>
    (viaFloat (candidate width height draws rng (k + 1)).1,
     viaFloat (candidate width height draws rng (k + 1)).2)

/-- The cells met by the loop of `spawnApple` entered with `proposedPos` after `rng`
calls of `rand()`. -/
def proposedFrom (width height : Int) (draws : Nat → Nat) (proposedPos : Pos) (rng : Nat) :
    Nat → Pos
  | 0 => proposedPos
  | k + 1 =>
    (viaFloat (Int.tmod (draws (rng + 2 * k)) width),
     viaFloat (Int.tmod (draws (rng + 2 * k + 1)) height))

/-! ## Concrete states and runs -/

/-- A snake on the cells (5,5), (4,5), (3,5), head first, heading right. -/
def exampleSnake : Snake :=
  { heap := [Node.mk (some 1) none (5, 5), Node.mk (some 2) (some 0) (4, 5),
             Node.mk none (some 1) (3, 5)],
    head := 0, tail := 2, direction := Directions.right, directionIndex := 0, eaten := false }

/-- A running state on the tick frame: the snake of `exampleSnake`, every cell of
the chain in `occupied`, the pickup away from the snake. -/
def exampleGame : Game :=
  { state := GameState.running, snake := exampleSnake,
    occupied := {(5, 5), (4, 5), (3, 5)}, apple := (0, 0), count := 20,
    cachedDirection := none, rng := 0 }

/-- A running state on the tick frame: a snake on (0,5), (1,5) heading left, at the
left edge of the board. -/
def edgeGame : Game :=
  { state := GameState.running,
    snake :=
      { heap := [Node.mk (some 1) none (0, 5), Node.mk none (some 0) (1, 5)],
        head := 0, tail := 1, direction := Directions.left, directionIndex := 2,
        eaten := false },
    occupied := {(0, 5), (1, 5)}, apple := (3, 3), count := 20,
    cachedDirection := none, rng := 0 }

/-- A state after a collision. -/
def overGame : Game :=
  { edgeGame with state := GameState.gameOver, cachedDirection := some 1 }

/-- Every call of `rand()` returns 0: each pickup is proposed at (0,0). -/
def zeroDraws : Nat → Nat := fun _ => 0

/-- Frames in which no key is pressed. -/
def idleFrames (n : Nat) : List Keys := List.replicate n noKeys

/-- The frame in which Enter is pressed. -/
def enterKey : Keys := { noKeys with enter := true }

/-- A frame in which the right arrow is pressed. -/
def turnRightKey : Keys := { noKeys with right := true }

/-- A frame in which the left arrow is pressed. -/
def turnLeftKey : Keys := { noKeys with left := true }

/-- A frame in which P is pressed. -/
def pauseKey : Keys := { noKeys with p := true }

/-- Draws that place the first pickup at (21,10), the second at (22,10), the third
at (21,11), and every later one is proposed at (0,0). -/
def loopDraws : Nat → Nat := fun n =>
  if n = 800 then 21 else if n = 801 then 10
  else if n = 802 then 22 else if n = 803 then 10
  else if n = 804 then 21 else if n = 805 then 11
  else 0

/-- Enter, then four ticks (the third and fourth with a right turn), then the 19
frames before the fifth tick. -/
def loopInputs : List Keys :=
  [enterKey] ++ idleFrames 20 ++ idleFrames 20 ++ idleFrames 19 ++ [turnRightKey]
    ++ idleFrames 19 ++ [turnRightKey] ++ idleFrames 19

/-- Draws that propose the first pickup on the head's starting cell (20,10). -/
def headDraws : Nat → Nat := fun n =>
  if n = 800 then 20 else if n = 801 then 10 else 0

/-- Draws that place the first pickup at (21,10) and propose the second at (20,10). -/
def tailDraws : Nat → Nat := fun n =>
  if n = 800 then 21 else if n = 801 then 10
  else if n = 802 then 20 else if n = 803 then 10
  else 0

/-- Enter, a left turn in the first tick, and on until the frame before the
eleventh tick: the snake heads up from (20,10) and its head is on row 0. -/
def wallInputs : List Keys :=
  [enterKey] ++ idleFrames 19 ++ [turnLeftKey] ++ idleFrames 199

/-- Draws for a board 16777218 cells wide: the third call of `rand()` returns
16777217, every other call 0. -/
def wideDraws : Nat → Nat := fun n => if n = 2 then 16777217 else 0

/-- Draws whose first candidate on a 40 by 20 board is (20,10) and whose second
is (21,10). -/
def redrawDraws : Nat → Nat := fun n =>
  if n = 0 then 20 else if n = 1 then 10 else if n = 2 then 61 else if n = 3 then 30 else 0

/-- Whether a run returned a state, and that state passes the test `check`. -/
def returnsWith (run : Option Game) (check : Game → Bool) : Bool :=
  match run with
  | some g => check g
  | none => false

/-- A snake on the cells (5,4), (5,5), (4,5), head first, heading up: the middle
segment has its neighbours to the north and to the west. -/
def cornerSnake : Snake :=
  { heap := [Node.mk (some 1) none (5, 4), Node.mk (some 2) (some 0) (5, 5),
             Node.mk none (some 1) (4, 5)],
    head := 0, tail := 2, direction := Directions.up, directionIndex := 3, eaten := false }

/-- The snake of `exampleSnake` heading up, with direction index 3. -/
def upSnake : Snake :=
  { exampleSnake with direction := Directions.up, directionIndex := 3 }

/-- The state of `exampleGame` with every cell of the chain but the tail's in
`occupied`. -/
def tailFreeGame : Game :=
  { exampleGame with occupied := {(5, 5), (4, 5)} }

/-- Draws for a board 16777220 cells wide: the third call of `rand()` returns
16777219, every other call 0. -/
def widerDraws : Nat → Nat := fun n => if n = 2 then 16777219 else 0

/-! ## Drawing: tile orientation -/

/-- The global vector `rotations`, in degrees. -/
def rotations : List Int := [0, 90, 180, 270]

/-- The source rectangles of the class `Snake` that `getBodyRotation` returns, each
named after its member. -/
inductive Sprite where
  | snakeBody
  | snakeCornerUpRight
  | snakeCornerDownRight
  | snakeCornerUpLeft
  | snakeCornerDownLeft
deriving DecidableEq, Repr

/-- The tests of `Snake::tailRotation` on the cell of the tail and the cell of the
node before it; the angle is in degrees (`0.f`, `180.f`, `270.f`, `90.f`). -/
def tailAngle (tailPos prevPos : Pos) : Int :=
  if prevPos.1 = tailPos.1 + 1 then 0
  else if prevPos.1 = tailPos.1 - 1 then 180
  else if prevPos.2 = tailPos.2 - 1 then 270
  else 90

/-- The method `Snake::tailRotation`: it reads `tail->prev->position` and
`tail->position`. -/
def Snake.tailRotation (s : Snake) : Option Int :=
  match s.heap[s.tail]? with
  | none => none
  | some t =>
    match t.prev with
    | none => none
    | some p =>
      match s.heap[p]? with
      | none => none
      | some pn => some (tailAngle t.position pn.position)

/-- The vector `neighbors` of `Snake::getBodyRotation` for a node on `pos` whose
`next` is on `nextPos` and whose `prev` is on `prevPos`: entry 0 is east, 1 north,
2 west, 3 south. -/
def neighbors (pos nextPos prevPos : Pos) : List Bool :=
  [decide (nextPos.1 = pos.1 + 1) || decide (prevPos.1 = pos.1 + 1),
   decide (nextPos.2 = pos.2 - 1) || decide (prevPos.2 = pos.2 - 1),
   decide (nextPos.1 = pos.1 - 1) || decide (prevPos.1 = pos.1 - 1),
   decide (nextPos.2 = pos.2 + 1) || decide (prevPos.2 = pos.2 + 1)]

/-- The `if` chain of `Snake::getBodyRotation` on the vector `neighbors`. -/
def selectSprite (neighbors : List Bool) : Sprite :=
  if neighbors.getD 0 false && neighbors.getD 2 false ||
      neighbors.getD 1 false && neighbors.getD 3 false then Sprite.snakeBody
  else if neighbors.getD 0 false && neighbors.getD 3 false then Sprite.snakeCornerUpLeft
  else if neighbors.getD 2 false && neighbors.getD 3 false then Sprite.snakeCornerUpRight
  else if neighbors.getD 0 false && neighbors.getD 1 false then Sprite.snakeCornerDownLeft
  else Sprite.snakeCornerDownRight

/-- The method `Snake::getBodyRotation`: it reads the positions of `runner`, of
`runner->next` and of `runner->prev`. -/
def Snake.getBodyRotation (s : Snake) (runner : Nat) : Option Sprite :=
  match s.heap[runner]? with
  | none => none
  | some nd =>
    match nd.next, nd.prev with
    | some nx, some pv =>
      match s.heap[nx]?, s.heap[pv]? with
      | some nn, some pn => some (selectSprite (neighbors nd.position nn.position pn.position))
      | _, _ => none
    | _, _ => none

/-- The addresses met when following `next` from `p`, for at most `fuel` nodes. -/
def walkNext (heap : List Node) : Nat → Option Nat → List Nat
  | 0, _ => []
  | _ + 1, none => []
  | fuel + 1, some p =>
    match heap[p]? with
    | none => []
    | some nd => p :: walkNext heap fuel nd.next

/-- The addresses met when following `prev` from `p`, for at most `fuel` nodes. -/
def walkPrev (heap : List Node) : Nat → Option Nat → List Nat
  | 0, _ => []
  | _ + 1, none => []
  | fuel + 1, some p =>
    match heap[p]? with
    | none => []
    | some nd => p :: walkPrev heap fuel nd.prev

/-! ## Paths on the grid -/

/-- Two cells differ by exactly 1 in exactly one coordinate. -/
def Adjacent (a b : Pos) : Prop :=
  (a.1 = b.1 ∧ (a.2 = b.2 + 1 ∨ b.2 = a.2 + 1)) ∨
  (a.2 = b.2 ∧ (a.1 = b.1 + 1 ∨ b.1 = a.1 + 1))

/-- Whether two cells are adjacent can be computed. -/
instance Adjacent.decide (a b : Pos) : Decidable (Adjacent a b) :=
  inferInstanceAs (Decidable (_ ∨ _))

/-- The cells of a chain, head to tail, form a path: consecutive cells are
adjacent, and the cells before and after each interior one are different. -/
def PathOK : List Pos → Prop
  | [] => True
  | [_] => True
  | [a, b] => Adjacent a b
  | a :: b :: c :: rest => Adjacent a b ∧ a ≠ c ∧ PathOK (b :: c :: rest)

/-- Whether cells form a path can be computed. -/
instance PathOK.decide : (l : List Pos) → Decidable (PathOK l)
  | [] => isTrue trivial
  | [_] => isTrue trivial
  | [a, b] => inferInstanceAs (Decidable (Adjacent a b))
  | a :: b :: c :: rest =>
    have := PathOK.decide (b :: c :: rest)
    inferInstanceAs (Decidable (Adjacent a b ∧ a ≠ c ∧ PathOK (b :: c :: rest)))

/-- The number of entries of the vector `neighbors` that are set. -/
def bitsSet (neighbors : List Bool) : Nat := neighbors.count true

/-! ## Counting frames -/

/-- Whether the frame run on `g` passes the gate of line 324 and runs the tick. -/
def ticks (g : Game) : Bool :=
  decide (g.state = GameState.running) && decide (Int.tmod g.count moveEvery = 0)

/-- Whether the frame run on `g` calls `addNode`: it runs the tick with the head on
the pickup (line 335; a turn does not move the head). -/
def grows (g : Game) : Bool :=
  ticks g && decide (g.snake.getHeadPos = some g.apple)

/-- The states `main` can be in at the end of a frame (or before the first), with
the number of frames so far that began in the running state and the number of
calls of `addNode` so far. -/
inductive ReachableCounted (draws : Nat → Nat) : Nat → Nat → Game → Prop where
  | init (fuel : Nat) (g : Game) : initGame fuel draws = some g → ReachableCounted draws 0 0 g
  | step (fuel : Nat) (keys : Keys) (g g1 : Game) (running added : Nat) :
      ReachableCounted draws running added g →
      frame fuel numCells draws keys g = some g1 →
      ReachableCounted draws (if g.state = GameState.running then running + 1 else running)
        (if grows g then added + 1 else added) g1

/-! ## Turn events -/

/-- The frame carries a turn-forward event: the right arrow or D is pressed. -/
def turnsForward (keys : Keys) : Prop := keys.right = true ∨ keys.d = true

/-- The frame carries a turn-backward event: the left arrow or A is pressed. -/
def turnsBackward (keys : Keys) : Prop := keys.left = true ∨ keys.a = true

/-- The frame carries no turn event. -/
def noTurn (keys : Keys) : Prop := ¬ turnsForward keys ∧ ¬ turnsBackward keys

/-- The two directions `d1`, `d2` are `x` and `y`, in either order. -/
def AreThe (d1 d2 x y : Directions) : Prop := (d1 = x ∧ d2 = y) ∨ (d1 = y ∧ d2 = x)

/-! ## The invariant of the reachable states -/

/-- What holds of every state `main` reaches, with `segs` the chain's segments
(address, cell) head to tail: the snake is a well-formed chain of at least two
nodes, no growth is pending, the direction index
is in 0..3 and `direction` is the entry of `compass` at it, the cells form a path
whose head lies one step from the second cell in `direction`, the frame counter
is in 1..20, and the buffered turn is empty when the counter is 1. -/
structure GameInv (g : Game) (segs : List (Nat × Pos)) : Prop where
  chain : IsChain g.snake segs
  long : 2 ≤ segs.length
  eaten : g.snake.eaten = false
  idx0 : 0 ≤ g.snake.directionIndex
  idx3 : g.snake.directionIndex ≤ 3
  dir : compassAt g.snake.directionIndex = some g.snake.direction
  path : PathOK (segs.map Prod.snd)
  facing : ∀ c0 c1 tl, segs.map Prod.snd = c0 :: c1 :: tl →
    c0 = moveHead g.snake.direction c1
  count1 : 1 ≤ g.count
  count20 : g.count ≤ 20
  buffer : g.count = 1 → g.cachedDirection = none

/-- The frames of `main` run one after the other, with the two counts of
`ReachableCounted` kept alongside the state. -/
def runFramesCounted (fuel : Nat) (draws : Nat → Nat) :
    List Keys → Nat × Nat × Game → Option (Nat × Nat × Game)
  | [], x => some x
  | keys :: rest, (running, added, g) =>
    match frame fuel numCells draws keys g with
    | none => none
    | some g1 =>
      runFramesCounted fuel draws rest
        (if g.state = GameState.running then running + 1 else running,
         if grows g then added + 1 else added, g1)

/-- The whole of `main` up to the end of the frames with key readings `inputs`,
with the two counts. -/
def runMainCounted (fuel : Nat) (draws : Nat → Nat) (inputs : List Keys) :
    Option (Nat × Nat × Game) :=
  match initGame fuel draws with
  | none => none
  | some g => runFramesCounted fuel draws inputs (0, 0, g)


/-! ## Tick windows -/

/-- The key readings of the frames of a run on `inputs` from `g` that began in the
running state, in order: the frames in which lines 319–323 read the turn keys and
line 324 tests `count`. -/
def runningInputs (fuel : Nat) (board : Int × Int) (draws : Nat → Nat) :
    List Keys → Game → List Keys
  | [], _ => []
  | keys :: rest, g =>
    (if g.state = GameState.running then [keys] else []) ++
      (match frame fuel board draws keys g with
       | none => []
       | some g1 => runningInputs fuel board draws rest g1)

/-- The state of `exampleGame` two frames before the tick frame, the buffer empty. -/
def windowGame : Game :=
  { exampleGame with count := 18 }
/-! ## The heap and the chain -/

theorem getElem?_setPosition_ne (heap : List Node) (a b : Nat) (v : Pos) (h : a ≠ b) :
    (setPosition heap a v)[b]? = heap[b]? := by
  unfold setPosition
  split
  · rfl
  · simp [List.getElem?_set, h]

theorem getElem?_setPosition_self (heap : List Node) (a : Nat) (v : Pos) (nd : Node)
    (h : heap[a]? = some nd) :
    (setPosition heap a v)[a]? = some { nd with position := v } := by
  unfold setPosition
  have hlt : a < heap.length := by
    by_contra hc
    rw [List.getElem?_eq_none (by omega)] at h
    cases h
  simp [h, List.getElem?_set, hlt]

theorem length_setPosition (heap : List Node) (a : Nat) (v : Pos) :
    (setPosition heap a v).length = heap.length := by
  unfold setPosition
  split <;> simp

theorem Linked.congr_heap {heap heap1 : List Node} :
    ∀ (segs : List (Nat × Pos)) (p nx : Option Nat),
      (∀ a ∈ segs.map Prod.fst, heap1[a]? = heap[a]?) →
      Linked heap p segs nx → Linked heap1 p segs nx
  | [], _, _, _, _ => trivial
  | seg :: rest, p, nx, hagree, h => by
    refine ⟨?_, Linked.congr_heap rest (some seg.1) nx
      (fun a ha => hagree a (by simp at ha ⊢; exact Or.inr ha)) h.2⟩
    rw [hagree seg.1 (by simp)]
    exact h.1

theorem lastAddr_append_singleton (xs : List (Nat × Pos)) (seg : Nat × Pos) (p : Option Nat) :
    lastAddr (xs ++ [seg]) p = some seg.1 := by
  induction xs generalizing p with
  | nil => rfl
  | cons x xs ih => exact ih (some x.1)

theorem firstAddr_append (xs ys : List (Nat × Pos)) (nx : Option Nat) :
    firstAddr (xs ++ ys) nx = firstAddr xs (firstAddr ys nx) := by
  cases xs <;> simp [firstAddr]

theorem Linked.append {heap : List Node} :
    ∀ (xs ys : List (Nat × Pos)) (p nx : Option Nat),
      Linked heap p (xs ++ ys) nx ↔
        Linked heap p xs (firstAddr ys nx) ∧ Linked heap (lastAddr xs p) ys nx
  | [], ys, p, nx => by simp [Linked, lastAddr]
  | seg :: rest, ys, p, nx => by
    have ih := @Linked.append heap rest ys (some seg.1) nx
    rw [List.cons_append]
    simp only [Linked, lastAddr]
    rw [ih, firstAddr_append, and_assoc]


theorem Linked.setPosition {heap : List Node} (xs ys : List (Nat × Pos)) (seg : Nat × Pos)
    (v : Pos) (p nx : Option Nat)
    (hnd : ((xs ++ seg :: ys).map Prod.fst).Nodup)
    (h : Linked heap p (xs ++ seg :: ys) nx) :
    Linked (setPosition heap seg.1 v) p (xs ++ (seg.1, v) :: ys) nx := by
  rw [Linked.append] at h ⊢
  simp only [List.map_append, List.map_cons] at hnd
  have hnd1 := List.nodup_append.mp hnd
  have hnot_xs : ∀ a ∈ xs.map Prod.fst, a ≠ seg.1 := by
    intro a ha hEq
    exact hnd1.2.2 ha (by simp [hEq])
  have hnot_ys : ∀ a ∈ ys.map Prod.fst, a ≠ seg.1 := by
    intro a ha hEq
    have := (List.nodup_cons.mp hnd1.2.1).1
    exact this (hEq ▸ ha)
  refine ⟨?_, ?_, ?_⟩
  · exact Linked.congr_heap xs p _
      (fun a ha => getElem?_setPosition_ne heap seg.1 a v (hnot_xs a ha).symm) h.1
  · have h2 := h.2.1
    simpa using getElem?_setPosition_self heap seg.1 v _ h2
  · exact Linked.congr_heap ys _ nx
      (fun a ha => getElem?_setPosition_ne heap seg.1 a v (hnot_ys a ha).symm) h.2.2

theorem shiftFrom_append_singleton (xs : List (Nat × Pos)) (b a : Nat × Pos) (c : Pos) :
    shiftFrom c (xs ++ [b, a]) = shiftFrom c (xs ++ [b]) ++ [(a.1, b.2)] := by
  induction xs generalizing c with
  | nil => rfl
  | cons x xs ih => simp [shiftFrom, ih]

theorem map_fst_shiftFrom (segs : List (Nat × Pos)) (c : Pos) :
    (shiftFrom c segs).map Prod.fst = segs.map Prod.fst := by
  induction segs generalizing c with
  | nil => rfl
  | cons x xs ih => simp [shiftFrom, ih]

theorem map_snd_shiftFrom (segs : List (Nat × Pos)) (c : Pos) :
    (shiftFrom c segs).map Prod.snd = (c :: segs.map Prod.snd).dropLast := by
  induction segs generalizing c with
  | nil => rfl
  | cons x xs ih => simp [shiftFrom, ih, List.dropLast]

theorem updateLoop_spec :
    ∀ (front : List (Nat × Pos)) (seg : Nat × Pos) (heap0 : List Node) (fuel : Nat)
      (back0 : List (Nat × Pos)),
      ((front ++ seg :: back0).map Prod.fst).Nodup →
      Linked heap0 none (front ++ seg :: back0) none →
      front.length ≤ fuel →
      ∃ heap1, updateLoop fuel heap0 (some seg.1) = some (heap1, firstAddr (front ++ [seg]) none) ∧
        heap1.length = heap0.length ∧
        Linked heap1 none (shiftFrom (firstCell front seg.2) (front ++ [seg]) ++ back0) none := by
  intro front
  induction front using List.reverseRecOn with
  | nil =>
    intro seg heap0 fuel back0 hnd hl _
    have hseg := hl.1
    refine ⟨heap0, ?_, rfl, ?_⟩
    · cases fuel <;> simp [updateLoop, hseg, firstAddr]
    · simpa [shiftFrom, firstCell] using hl
  | append_singleton xs b ih =>
    intro seg heap0 fuel back0 hnd hl hfuel
    have hl1 := hl
    rw [List.append_assoc, Linked.append] at hl1
    have hb : heap0[b.1]? = some (Node.mk (some seg.1) (lastAddr xs none) b.2) := by
      simpa [firstAddr] using hl1.2.1
    have hl2 := hl
    rw [Linked.append] at hl2
    have hseg : heap0[seg.1]? = some (Node.mk (firstAddr back0 none) (some b.1) seg.2) := by
      simpa [lastAddr_append_singleton] using hl2.2.1
    obtain ⟨fuel1, rfl⟩ : ∃ f, fuel = f + 1 := by
      refine ⟨fuel - 1, ?_⟩
      simp at hfuel
      omega
    have hstep : Linked (setPosition heap0 seg.1 b.2) none
        ((xs ++ [b]) ++ (seg.1, b.2) :: back0) none :=
      Linked.setPosition (xs ++ [b]) back0 seg b.2 none none hnd hl
    have hnd1 : ((xs ++ b :: (seg.1, b.2) :: back0).map Prod.fst).Nodup := by
      simpa using hnd
    rw [List.append_assoc] at hstep
    obtain ⟨heap1, hrun, hlen, hlinked⟩ :=
      ih b (setPosition heap0 seg.1 b.2) fuel1 ((seg.1, b.2) :: back0) hnd1 (by simpa using hstep)
        (by simp at hfuel; omega)
    refine ⟨heap1, ?_, ?_, ?_⟩
    · rw [updateLoop]
      simp only [hseg, hb]
      rw [hrun]
      cases xs <;> simp [firstAddr]
    · rw [hlen, length_setPosition]
    · have hfc : firstCell (xs ++ [b]) seg.2 = firstCell xs b.2 := by
        cases xs <;> rfl
      rw [hfc, List.append_assoc, List.singleton_append, shiftFrom_append_singleton]
      simpa using hlinked


theorem Linked.addr_lt {heap : List Node} :
    ∀ (segs : List (Nat × Pos)) (p nx : Option Nat), Linked heap p segs nx →
      ∀ a ∈ segs.map Prod.fst, a < heap.length
  | [], _, _, _, a, ha => by simp at ha
  | seg :: rest, p, nx, h, a, ha => by
    rw [List.map_cons, List.mem_cons] at ha
    rcases ha with rfl | ha
    · by_contra hc
      have := h.1
      rw [List.getElem?_eq_none (by omega)] at this
      cases this
    · exact Linked.addr_lt rest (some seg.1) nx h.2 a ha

theorem length_le_of_nodup_of_lt (l : List Nat) (n : Nat) (hnd : l.Nodup)
    (hlt : ∀ a ∈ l, a < n) : l.length ≤ n := by
  have hsub : l.toFinset ⊆ Finset.range n := by
    intro a ha
    exact Finset.mem_range.mpr (hlt a (List.mem_toFinset.mp ha))
  have := Finset.card_le_card hsub
  rwa [List.toFinset_card_of_nodup hnd, Finset.card_range] at this

theorem Linked.length_le {heap : List Node} (segs : List (Nat × Pos)) (p nx : Option Nat)
    (hnd : (segs.map Prod.fst).Nodup) (h : Linked heap p segs nx) :
    segs.length ≤ heap.length := by
  have := length_le_of_nodup_of_lt _ heap.length hnd (Linked.addr_lt segs p nx h)
  simpa using this

theorem walkCells_of_linked {heap : List Node} :
    ∀ (segs : List (Nat × Pos)) (p : Option Nat) (fuel : Nat),
      Linked heap p segs none → segs.length ≤ fuel →
      walkCells heap fuel (firstAddr segs none) = segs.map Prod.snd
  | [], _, fuel, _, _ => by cases fuel <;> rfl
  | seg :: rest, p, fuel, h, hfuel => by
    obtain ⟨f, rfl⟩ : ∃ f, fuel = f + 1 := ⟨fuel - 1, by simp at hfuel; omega⟩
    have ih := walkCells_of_linked rest (some seg.1) f h.2 (by simp at hfuel; omega)
    rw [show firstAddr (seg :: rest) none = some seg.1 from rfl, walkCells]
    simp only [h.1]
    rw [ih, List.map_cons]

theorem IsChain.cells_eq {s : Snake} {segs : List (Nat × Pos)} (h : IsChain s segs) :
    s.cells = segs.map Prod.snd := by
  unfold Snake.cells
  rw [← h.head]
  exact walkCells_of_linked segs none _ h.linked (Linked.length_le segs none none h.nodup h.linked)

theorem lastAddr_eq_some_split :
    ∀ (segs : List (Nat × Pos)) (p : Option Nat) (t : Nat) (c0 : Pos), segs ≠ [] →
      lastAddr segs p = some t → ∃ front, segs = front ++ [(t, lastCell segs c0)]
  | [], _, _, _, h, _ => absurd rfl h
  | [seg], _, t, _, _, ht => by
    simp [lastAddr] at ht
    exact ⟨[], by simp [← ht, lastCell]⟩
  | seg :: x :: rest, _, t, c0, _, ht => by
    obtain ⟨front, hfc⟩ :=
      lastAddr_eq_some_split (x :: rest) (some seg.1) t seg.2 (by simp) ht
    refine ⟨seg :: front, ?_⟩
    have hc : lastCell (seg :: x :: rest) c0 = lastCell (x :: rest) seg.2 := rfl
    rw [List.cons_append, hc, ← hfc]

theorem lastCell_eq_getLast (rest : List (Nat × Pos)) (P0 : Pos) :
    lastCell rest P0 = (P0 :: rest.map Prod.snd).getLast (List.cons_ne_nil _ _) := by
  induction rest generalizing P0 with
  | nil => rfl
  | cons x xs ih =>
    rw [lastCell, ih x.2, List.map_cons, List.getLast_cons (List.cons_ne_nil _ _)]

/-- The common part of an advance: the loop started at the node `seg` shifts the
cells of the run that ends at `seg`, the head moves, and the run `back` behind
`seg` is left as it is. -/
theorem update_of_linked (s : Snake) (a0 : Nat) (P0 : Pos) (rest back : List (Nat × Pos))
    (t : Nat)
    (hnd : ((((a0, P0) :: rest) ++ back).map Prod.fst).Nodup)
    (hl : Linked s.heap none (((a0, P0) :: rest) ++ back) none)
    (ht : lastAddr ((a0, P0) :: rest) none = some t)
    (hstart : (if s.eaten then (s.heap[s.tail]?).map Node.prev else some (some s.tail))
      = some (some t)) :
    ∃ heap2, s.update = some { s with heap := heap2, eaten := false } ∧
      heap2.length = s.heap.length ∧
      Linked heap2 none
        (((a0, moveHead s.direction P0) :: shiftFrom P0 rest) ++ back) none := by
  obtain ⟨front, hsplit⟩ :=
    lastAddr_eq_some_split ((a0, P0) :: rest) none t P0 (by simp) ht
  generalize lastCell ((a0, P0) :: rest) P0 = c at hsplit
  have hlen : (((a0, P0) :: rest) ++ back).length ≤ s.heap.length :=
    Linked.length_le _ none none hnd hl
  have hnd1 : ((front ++ (t, c) :: back).map Prod.fst).Nodup := by
    rw [hsplit] at hnd
    simpa using hnd
  have hl1 : Linked s.heap none (front ++ (t, c) :: back) none := by
    rw [hsplit] at hl
    simpa using hl
  have hfront : front.length ≤ s.heap.length := by
    rw [hsplit] at hlen
    simp at hlen
    omega
  obtain ⟨heap1, hrun, hlen1, hlinked⟩ :=
    updateLoop_spec front (t, c) s.heap s.heap.length back hnd1 hl1 hfront
  have hfc : firstCell front c = P0 := by
    cases front with
    | nil => simp at hsplit; simp [firstCell, hsplit.1.2]
    | cons x xs => simp at hsplit; simp [firstCell, ← hsplit.1]
  simp only at hrun hlinked
  rw [hfc, ← hsplit] at hlinked
  rw [← hsplit] at hrun
  simp only [firstAddr, List.cons_append] at hrun
  have hshift : shiftFrom P0 ((a0, P0) :: rest) = (a0, P0) :: shiftFrom P0 rest := rfl
  rw [hshift] at hlinked
  have hhead := hlinked.1
  have hnd2 : (([] ++ (a0, P0) :: (shiftFrom P0 rest ++ back)).map Prod.fst).Nodup := by
    simpa [map_fst_shiftFrom] using hnd
  have hfinal := Linked.setPosition [] (shiftFrom P0 rest ++ back) (a0, P0)
    (moveHead s.direction P0) none none hnd2 (by simpa using hlinked)
  refine ⟨setPosition heap1 a0 (moveHead s.direction P0), ?_, ?_, by simpa using hfinal⟩
  · unfold Snake.update
    simp only [hstart, hrun]
    simp only [List.cons_append] at hhead
    rw [hhead]
  · rw [length_setPosition, hlen1]


theorem lastAddr_congr :
    ∀ (xs ys : List (Nat × Pos)) (p : Option Nat), xs.map Prod.fst = ys.map Prod.fst →
      lastAddr xs p = lastAddr ys p
  | [], [], _, _ => rfl
  | [], _ :: _, _, h => by simp at h
  | _ :: _, [], _, h => by simp at h
  | x :: xs, y :: ys, _, h => by
    simp only [List.map_cons, List.cons.injEq] at h
    simp only [lastAddr, h.1]
    exact lastAddr_congr xs ys _ h.2

theorem lastAddr_append_cons (xs ys : List (Nat × Pos)) (seg : Nat × Pos) (p : Option Nat) :
    lastAddr (xs ++ seg :: ys) p = lastAddr ys (some seg.1) := by
  induction xs generalizing p with
  | nil => rfl
  | cons x xs ih => exact ih (some x.1)

theorem getElem?_lt_of_eq_some {heap : List Node} {a : Nat} {nd : Node}
    (h : heap[a]? = some nd) : a < heap.length := by
  by_contra hc
  rw [List.getElem?_eq_none (by omega)] at h
  cases h

theorem getElem?_setNext_ne (heap : List Node) (a b : Nat) (v : Option Nat) (h : a ≠ b) :
    (setNext heap a v)[b]? = heap[b]? := by
  unfold setNext
  split
  · rfl
  · simp [List.getElem?_set, h]

theorem getElem?_setNext_self (heap : List Node) (a : Nat) (v : Option Nat) (nd : Node)
    (h : heap[a]? = some nd) :
    (setNext heap a v)[a]? = some { nd with next := v } := by
  unfold setNext
  simp [h, List.getElem?_set, getElem?_lt_of_eq_some h]

theorem getElem?_setPrev_ne (heap : List Node) (a b : Nat) (v : Option Nat) (h : a ≠ b) :
    (setPrev heap a v)[b]? = heap[b]? := by
  unfold setPrev
  split
  · rfl
  · simp [List.getElem?_set, h]

theorem getElem?_setPrev_self (heap : List Node) (a : Nat) (v : Option Nat) (nd : Node)
    (h : heap[a]? = some nd) :
    (setPrev heap a v)[a]? = some { nd with prev := v } := by
  unfold setPrev
  simp [h, List.getElem?_set, getElem?_lt_of_eq_some h]

theorem length_setNext (heap : List Node) (a : Nat) (v : Option Nat) :
    (setNext heap a v).length = heap.length := by
  unfold setNext
  split <;> simp

theorem length_setPrev (heap : List Node) (a : Nat) (v : Option Nat) :
    (setPrev heap a v).length = heap.length := by
  unfold setPrev
  split <;> simp

/-- What `addNode` does to a chain: the new node, allocated at the next free
address, becomes the tail and sits on the old tail's cell. -/
theorem addNode_of_chain (s : Snake) (front : List (Nat × Pos)) (t : Nat) (c : Pos)
    (hchain : IsChain s (front ++ [(t, c)])) :
    ∃ s1, s.addNode = some s1 ∧ IsChain s1 (front ++ [(t, c), (s.heap.length, c)]) ∧
      s1.tail = s.heap.length ∧ s1.head = s.head ∧ s1.eaten = s.eaten ∧
      s1.direction = s.direction ∧ s1.directionIndex = s.directionIndex ∧
      s1.heap.length = s.heap.length + 1 := by
  have hl := hchain.linked
  rw [Linked.append] at hl
  have htail : s.tail = t := by
    have := hchain.tail
    rw [lastAddr_append_singleton] at this
    exact (Option.some.inj this).symm
  have ht : s.heap[t]? = some (Node.mk none (lastAddr front none) c) := by
    simpa [firstAddr] using hl.2.1
  have htlt : t < s.heap.length := getElem?_lt_of_eq_some ht
  have hlt := Linked.addr_lt _ none none hchain.linked
  have hnd := hchain.nodup
  let heap1 := s.heap ++ [Node.mk none (some t) c]
  let heap2 := setNext heap1 t (some s.heap.length)
  let heap3 := setPrev heap2 s.heap.length (some t)
  have h1t : heap1[t]? = some (Node.mk none (lastAddr front none) c) := by
    simp only [heap1]
    rw [List.getElem?_append_left htlt]
    exact ht
  have h1n : heap1[s.heap.length]? = some (Node.mk none (some t) c) := by
    simp [heap1, List.getElem?_append_right]
  have h3t : heap3[t]? = some (Node.mk (some s.heap.length) (lastAddr front none) c) := by
    simp only [heap3, heap2]
    rw [getElem?_setPrev_ne _ _ _ _ (by omega), getElem?_setNext_self _ _ _ _ h1t]
  have h3n : heap3[s.heap.length]? = some (Node.mk none (some t) c) := by
    simp only [heap3, heap2]
    have h2n : (setNext heap1 t (some s.heap.length))[s.heap.length]?
        = some (Node.mk none (some t) c) := by
      rw [getElem?_setNext_ne _ _ _ _ (by omega)]
      exact h1n
    rw [getElem?_setPrev_self _ _ _ _ h2n]
  have h3other : ∀ a, a < s.heap.length → a ≠ t → heap3[a]? = s.heap[a]? := by
    intro a ha hat
    simp only [heap3, heap2, heap1]
    rw [getElem?_setPrev_ne _ _ _ _ (by omega), getElem?_setNext_ne _ _ _ _ (Ne.symm hat),
      List.getElem?_append_left ha]
  refine ⟨{ s with heap := heap3, tail := s.heap.length }, ?_, ?_, rfl, rfl, rfl, rfl, rfl, ?_⟩
  · unfold Snake.addNode
    rw [htail, ht]
  · have hfront_lt : ∀ a ∈ front.map Prod.fst, a < s.heap.length ∧ a ≠ t := by
      intro a ha
      refine ⟨hlt a (by simp at ha ⊢; exact Or.inl ha), ?_⟩
      rintro rfl
      simp only [List.map_append, List.map_cons, List.map_nil] at hnd
      exact (List.nodup_append.mp hnd).2.2 ha (by simp)
    refine ⟨?_, ?_, ?_, ?_⟩
    · have : (front ++ [(t, c), (s.heap.length, c)]).map Prod.fst
          = (front ++ [(t, c)]).map Prod.fst ++ [s.heap.length] := by simp
      rw [this]
      refine List.Nodup.append hnd (by simp) ?_
      intro a ha hb
      simp only [List.mem_singleton] at hb
      have := hlt a ha
      omega
    · have := hchain.head
      rw [firstAddr_append] at this ⊢
      simpa [firstAddr] using this
    · rw [lastAddr_append_cons]
      rfl
    · show Linked heap3 none (front ++ [(t, c), (s.heap.length, c)]) none
      rw [Linked.append]
      refine ⟨?_, ?_, ?_, trivial⟩
      · exact Linked.congr_heap front none _
          (fun a ha => h3other a (hfront_lt a ha).1 (hfront_lt a ha).2) hl.1
      · simpa [firstAddr] using h3t
      · simpa [firstAddr] using h3n
  · show heap3.length = s.heap.length + 1
    simp only [heap3, heap2, heap1, length_setPrev, length_setNext, List.length_append,
      List.length_singleton]


theorem IsChain.of_update_heap {s : Snake} {segs segs1 : List (Nat × Pos)} {heap2 : List Node}
    (hchain : IsChain s segs) (hfst : segs1.map Prod.fst = segs.map Prod.fst)
    (hl : Linked heap2 none segs1 none) :
    IsChain { s with heap := heap2, eaten := false } segs1 := by
  refine ⟨by rw [hfst]; exact hchain.nodup, ?_, ?_, hl⟩
  · have := hchain.head
    cases segs with
    | nil => simp [firstAddr] at this
    | cons x xs =>
      cases segs1 with
      | nil => simp at hfst
      | cons y ys =>
        simp only [List.map_cons, List.cons.injEq] at hfst
        simpa [firstAddr, hfst.1] using this
  · rw [lastAddr_congr segs1 segs none hfst]
    exact hchain.tail

theorem IsChain.congr_snake {s s1 : Snake} {segs : List (Nat × Pos)} (hchain : IsChain s segs)
    (hheap : s1.heap = s.heap) (hhead : s1.head = s.head) (htail : s1.tail = s.tail) :
    IsChain s1 segs :=
  ⟨hchain.nodup, by rw [hhead]; exact hchain.head, by rw [htail]; exact hchain.tail,
    by rw [hheap]; exact hchain.linked⟩

theorem IsChain.getHeadPos_eq {s : Snake} {a0 : Nat} {P0 : Pos} {rest : List (Nat × Pos)}
    (hchain : IsChain s ((a0, P0) :: rest)) : s.getHeadPos = some P0 := by
  have hh : a0 = s.head := by simpa [firstAddr] using hchain.head
  have := hchain.linked.1
  simp only at this
  unfold Snake.getHeadPos
  rw [← hh, this]
  rfl

theorem IsChain.getTailPos_eq {s : Snake} {a0 : Nat} {P0 : Pos} {rest : List (Nat × Pos)}
    (hchain : IsChain s ((a0, P0) :: rest)) : s.getTailPos = some (lastCell rest P0) := by
  obtain ⟨front, hsplit⟩ :=
    lastAddr_eq_some_split ((a0, P0) :: rest) none s.tail P0 (by simp) hchain.tail
  have hl := hchain.linked
  rw [hsplit, Linked.append] at hl
  have := hl.2.1
  simp only at this
  unfold Snake.getTailPos
  rw [this]
  rfl

/-- An advance without growth on a chain. -/
theorem advance_of_chain (s : Snake) (a0 : Nat) (P0 : Pos) (rest : List (Nat × Pos))
    (hchain : IsChain s ((a0, P0) :: rest)) (he : s.eaten = false) :
    ∃ s1, s.update = some s1 ∧
      IsChain s1 ((a0, moveHead s.direction P0) :: shiftFrom P0 rest) ∧
      s1.direction = s.direction ∧ s1.directionIndex = s.directionIndex ∧
      s1.eaten = false ∧ s1.heap.length = s.heap.length := by
  obtain ⟨t, ht⟩ : ∃ t, lastAddr ((a0, P0) :: rest) none = some t := ⟨s.tail, hchain.tail⟩
  have htail : t = s.tail := Option.some.inj (ht.symm.trans hchain.tail)
  obtain ⟨heap2, hupd, hlen, hl⟩ := update_of_linked s a0 P0 rest [] t
    (by simpa using hchain.nodup) (by simpa using hchain.linked) ht (by simp [he, htail])
  exact ⟨_, hupd,
    IsChain.of_update_heap hchain (by simp [map_fst_shiftFrom]) (by simpa using hl),
    rfl, rfl, rfl, hlen⟩

/-- Growth on a chain: `setEaten`, `addNode`, then the advance. -/
theorem grow_advance_of_chain (s : Snake) (a0 : Nat) (P0 : Pos) (rest : List (Nat × Pos))
    (hchain : IsChain s ((a0, P0) :: rest)) :
    ∃ s1 s2, s.setEaten.addNode = some s1 ∧ s1.update = some s2 ∧
      IsChain s2 (((a0, moveHead s.direction P0) :: shiftFrom P0 rest) ++
        [(s.heap.length, lastCell rest P0)]) ∧
      s2.direction = s.direction ∧ s2.directionIndex = s.directionIndex ∧
      s2.eaten = false ∧ s2.heap.length = s.heap.length + 1 := by
  obtain ⟨front, hsplit⟩ :=
    lastAddr_eq_some_split ((a0, P0) :: rest) none s.tail P0 (by simp) hchain.tail
  have hc : lastCell ((a0, P0) :: rest) P0 = lastCell rest P0 := rfl
  rw [hc] at hsplit
  generalize lastCell rest P0 = c at hsplit ⊢
  have hchainE : IsChain s.setEaten (front ++ [(s.tail, c)]) := by
    rw [← hsplit]
    exact hchain.congr_snake rfl rfl rfl
  obtain ⟨s1, hadd, hchain1, htail1, _, heaten1, hdir1, hidx1, hlen1⟩ :=
    addNode_of_chain s.setEaten front s.tail c hchainE
  have hseg1 : front ++ [(s.tail, c), (s.heap.length, c)]
      = ((a0, P0) :: rest) ++ [(s.heap.length, c)] := by
    rw [hsplit]
    simp
  have hheap : s.setEaten.heap.length = s.heap.length := rfl
  rw [hheap] at hchain1 htail1 hlen1
  rw [hseg1] at hchain1
  have hnew : s1.heap[s.heap.length]? = some (Node.mk none (some s.tail) c) := by
    have hl := hchain1.linked
    rw [hsplit, List.append_assoc, Linked.append] at hl
    have := hl.2.2.1
    simpa [firstAddr] using this
  have hstart : (if s1.eaten then (s1.heap[s1.tail]?).map Node.prev else some (some s1.tail))
      = some (some s.tail) := by
    have : s1.eaten = true := heaten1
    simp [this, htail1, hnew]
  obtain ⟨heap2, hupd, hlen2, hl⟩ := update_of_linked s1 a0 P0 rest [(s.heap.length, c)] s.tail
    hchain1.nodup hchain1.linked hchain.tail hstart
  have hdir : s1.direction = s.direction := hdir1
  rw [hdir] at hl
  exact ⟨s1, _, hadd, hupd,
    IsChain.of_update_heap hchain1 (by simp [map_fst_shiftFrom]) hl,
    hdir1, hidx1, rfl, by rw [hlen2, hlen1]⟩


/-! ## The pickup spawner -/

theorem floatSpacing_small (fuel n : Nat) (h : n < 2 ^ 24) : floatSpacing fuel n = 1 := by
  cases fuel with
  | zero => rfl
  | succ f =>
    simp only [floatSpacing]
    rw [if_pos h]

theorem floatRound_small (n : Nat) (h : n < 2 ^ 24) : floatRound n = n := by
  simp [floatRound, floatSpacing_small n n h, Nat.mod_one]

theorem viaFloat_small (v : Int) (h0 : 0 ≤ v) (h1 : v < 2 ^ 24) : viaFloat v = v := by
  unfold viaFloat
  rw [if_pos h0, floatRound_small v.toNat (by omega)]
  omega

theorem tmod_draw_bounds (n : Nat) (w : Int) (hw : 0 < w) :
    0 ≤ Int.tmod (n : Int) w ∧ Int.tmod (n : Int) w < w := by
  rw [Int.tmod_eq_emod (by omega) (by omega)]
  exact ⟨Int.emod_nonneg _ (by omega), Int.emod_lt_of_pos _ hw⟩

theorem proposed_eq_candidate (width height : Int) (draws : Nat → Nat) (rng k : Nat)
    (hw : 0 < width) (hh : 0 < height) (hw2 : width ≤ 2 ^ 24) (hh2 : height ≤ 2 ^ 24) :
    proposed width height draws rng k = candidate width height draws rng k := by
  cases k with
  | zero => rfl
  | succ j =>
    have h1 := tmod_draw_bounds (draws (rng + 2 * (j + 1))) width hw
    have h2 := tmod_draw_bounds (draws (rng + 2 * (j + 1) + 1)) height hh
    simp only [proposed, candidate]
    rw [viaFloat_small _ h1.1 (by omega), viaFloat_small _ h2.1 (by omega)]

theorem proposedFrom_shift (width height : Int) (draws : Nat → Nat) (p0 : Pos) (rng k : Nat) :
    proposedFrom width height draws
      (viaFloat (Int.tmod (draws rng) width), viaFloat (Int.tmod (draws (rng + 1)) height))
      (rng + 2) k
    = proposedFrom width height draws p0 rng (k + 1) := by
  cases k with
  | zero => simp [proposedFrom]
  | succ j =>
    simp only [proposedFrom]
    have e1 : rng + 2 + 2 * j = rng + 2 * (j + 1) := by omega
    rw [e1]

theorem spawnAppleLoop_iff (width height : Int) (occupied : Finset Pos) (draws : Nat → Nat)
    (p : Pos) (rng1 : Nat) :
    ∀ (fuel rng : Nat) (p0 : Pos),
      spawnAppleLoop width height occupied draws fuel rng p0 = some (p, rng1) ↔
        ∃ k, k ≤ fuel ∧ p = proposedFrom width height draws p0 rng k ∧ p ∉ occupied ∧
          (∀ j, j < k → proposedFrom width height draws p0 rng j ∈ occupied) ∧
          rng1 = rng + 2 * k := by
  intro fuel
  induction fuel with
  | zero =>
    intro rng p0
    simp only [spawnAppleLoop]
    constructor
    · intro h
      by_cases hp : p0 ∈ occupied
      · simp [hp] at h
      · simp only [hp, if_false, Option.some.injEq, Prod.mk.injEq] at h
        exact ⟨0, le_refl _, by simp [proposedFrom, h.1], by rw [← h.1]; exact hp,
          by intro j hj; omega, by omega⟩
    · rintro ⟨k, hk, hpk, hfree, _, hrng⟩
      obtain rfl : k = 0 := by omega
      simp only [proposedFrom] at hpk
      subst hpk
      simp [hfree, hrng]
  | succ f ih =>
    intro rng p0
    simp only [spawnAppleLoop]
    by_cases hp : p0 ∈ occupied
    · rw [if_pos hp, ih]
      constructor
      · rintro ⟨k, hk, hpk, hfree, hocc, hrng⟩
        refine ⟨k + 1, by omega, ?_, hfree, ?_, by omega⟩
        · rw [hpk, proposedFrom_shift]
        · intro j hj
          cases j with
          | zero => exact hp
          | succ i =>
            rw [← proposedFrom_shift]
            exact hocc i (by omega)
      · rintro ⟨k, hk, hpk, hfree, hocc, hrng⟩
        cases k with
        | zero =>
          simp only [proposedFrom] at hpk
          exact absurd (hpk ▸ hp) hfree
        | succ i =>
          refine ⟨i, by omega, ?_, hfree, ?_, by omega⟩
          · rw [hpk, proposedFrom_shift]
          · intro j hj
            rw [proposedFrom_shift]
            exact hocc (j + 1) (by omega)
    · rw [if_neg hp]
      constructor
      · intro h
        simp only [Option.some.injEq, Prod.mk.injEq] at h
        exact ⟨0, by omega, by simp [proposedFrom, h.1], by rw [← h.1]; exact hp,
          by intro j hj; omega, by omega⟩
      · rintro ⟨k, hk, hpk, hfree, hocc, hrng⟩
        cases k with
        | zero =>
          simp only [proposedFrom] at hpk
          simp [hpk, hrng]
        | succ i => exact absurd (hocc 0 (by omega)) hp

theorem proposedFrom_eq_proposed (width height : Int) (draws : Nat → Nat) (rng k : Nat) :
    proposedFrom width height draws
      (Int.tmod (draws rng) width, Int.tmod (draws (rng + 1)) height) (rng + 2) k
    = proposed width height draws rng k := by
  cases k with
  | zero => simp [proposedFrom, proposed, candidate]
  | succ j =>
    simp only [proposedFrom, proposed, candidate]
    have e1 : rng + 2 + 2 * j = rng + 2 * (j + 1) := by omega
    rw [e1]

/-- What `spawnApple` returns, for every board: it returns exactly when one of the
first `fuel + 1` proposed cells is free, and then the first free one. -/
theorem spawnApple_iff (fuel : Nat) (width height : Int) (occupied : Finset Pos)
    (draws : Nat → Nat) (rng : Nat) (p : Pos) (rng1 : Nat)
    (hw : width ≠ 0) (hh : height ≠ 0) :
    spawnApple fuel width height occupied draws rng = some (p, rng1) ↔
      ∃ k, k ≤ fuel ∧ p = proposed width height draws rng k ∧ p ∉ occupied ∧
        (∀ j, j < k → proposed width height draws rng j ∈ occupied) ∧
        rng1 = rng + 2 * (k + 1) := by
  unfold spawnApple
  rw [if_neg (by simp [hw, hh]), spawnAppleLoop_iff]
  simp only [proposedFrom_eq_proposed]
  constructor
  · rintro ⟨k, hk, hpk, hfree, hocc, hrng⟩
    exact ⟨k, hk, hpk, hfree, hocc, by omega⟩
  · rintro ⟨k, hk, hpk, hfree, hocc, hrng⟩
    exact ⟨k, hk, hpk, hfree, hocc, by omega⟩

/-! ## The tick -/

theorem collision_iff (board : Int × Int) (occupied : Finset Pos) (headPos : Pos) :
    collision board occupied headPos = true ↔
      headPos ∈ occupied ∨ ¬ (0 ≤ headPos.1 ∧ headPos.1 ≤ board.1 - 1) ∨
        ¬ (0 ≤ headPos.2 ∧ headPos.2 ≤ board.2 - 1) := by
  simp only [collision, inRange, Bool.or_eq_true, decide_eq_true_eq, Bool.not_eq_true',
    Bool.and_eq_false_iff, decide_eq_false_iff_not, ge_iff_le, or_assoc]
  tauto

theorem tmod_bounds (a w : Int) (ha : 0 ≤ a) (hw : 0 < w) :
    0 ≤ Int.tmod a w ∧ Int.tmod a w < w := by
  rw [Int.tmod_eq_emod ha (by omega)]
  exact ⟨Int.emod_nonneg _ (by omega), Int.emod_lt_of_pos _ hw⟩

theorem compassAt_isSome (m : Int) (h0 : 0 ≤ m) (h4 : m < 4) : ∃ d, compassAt m = some d := by
  have hm : m = 0 ∨ m = 1 ∨ m = 2 ∨ m = 3 := by omega
  rcases hm with rfl | rfl | rfl | rfl <;> exact ⟨_, rfl⟩

theorem applyCachedDirection_eq_some {c : Option Int} {s s1 : Snake}
    (h : applyCachedDirection c s = some s1) :
    s1.heap = s.heap ∧ s1.head = s.head ∧ s1.tail = s.tail ∧ s1.eaten = s.eaten := by
  unfold applyCachedDirection at h
  cases c with
  | none =>
    simp only [Option.some.injEq] at h
    subst h
    exact ⟨rfl, rfl, rfl, rfl⟩
  | some v =>
    simp only at h
    split at h
    · unfold Snake.nextDirection at h
      dsimp only at h
      split at h
      · cases h
      · simp only [Option.some.injEq] at h
        subst h
        exact ⟨rfl, rfl, rfl, rfl⟩
    · unfold Snake.prevDirection at h
      dsimp only at h
      split at h
      · cases h
      · simp only [Option.some.injEq] at h
        subst h
        exact ⟨rfl, rfl, rfl, rfl⟩

theorem applyCachedDirection_isSome (c : Option Int) (s : Snake) (h : 0 ≤ s.directionIndex) :
    ∃ s1, applyCachedDirection c s = some s1 := by
  unfold applyCachedDirection
  cases c with
  | none => exact ⟨s, rfl⟩
  | some v =>
    simp only
    split
    · have hb := tmod_bounds (s.directionIndex + 1) 4 (by omega) (by omega)
      obtain ⟨d, hd⟩ := compassAt_isSome _ hb.1 hb.2
      unfold Snake.nextDirection
      simp only [hd]
      exact ⟨_, rfl⟩
    · have hb := tmod_bounds (s.directionIndex - 1 + 4) 4 (by omega) (by omega)
      obtain ⟨d, hd⟩ := compassAt_isSome _ hb.1 hb.2
      unfold Snake.prevDirection
      simp only [hd]
      exact ⟨_, rfl⟩

/-- What a tick does to a state whose snake is a chain with cells `P0 :: rest`, when
the spawner returns if it is called. -/
theorem tick_of_chain (fuel : Nat) (board : Int × Int) (draws : Nat → Nat) (g : Game)
    (a0 : Nat) (P0 : Pos) (rest : List (Nat × Pos))
    (hchain : IsChain g.snake ((a0, P0) :: rest)) (he : g.snake.eaten = false)
    (hidx : 0 ≤ g.snake.directionIndex)
    (hspawn : P0 = g.apple →
      ∃ r, spawnApple fuel board.1 board.2 g.occupied draws g.rng = some r) :
    ∃ s1 g1, applyCachedDirection g.cachedDirection g.snake = some s1 ∧
      tick fuel board draws g = some g1 ∧
      g1.state = (if collision board g.occupied (moveHead s1.direction P0)
        then GameState.gameOver else g.state) ∧
      g1.count = 1 ∧ g1.cachedDirection = none ∧ g1.snake.eaten = false ∧
      g1.snake.direction = s1.direction ∧ g1.snake.directionIndex = s1.directionIndex ∧
      g1.snake.getHeadPos = some (moveHead s1.direction P0) ∧
      (P0 ≠ g.apple →
        IsChain g1.snake ((a0, moveHead s1.direction P0) :: shiftFrom P0 rest) ∧
        g1.occupied = (insert (moveHead s1.direction P0) g.occupied).erase
          (lastCell (shiftFrom P0 rest) (moveHead s1.direction P0)) ∧
        g1.apple = g.apple ∧ g1.rng = g.rng) ∧
      (P0 = g.apple →
        IsChain g1.snake (((a0, moveHead s1.direction P0) :: shiftFrom P0 rest) ++
          [(g.snake.heap.length, lastCell rest P0)]) ∧
        g1.occupied = insert (moveHead s1.direction P0) g.occupied ∧
        spawnApple fuel board.1 board.2 g.occupied draws g.rng = some (g1.apple, g1.rng)) := by
  obtain ⟨s1, hs1⟩ := applyCachedDirection_isSome g.cachedDirection g.snake hidx
  obtain ⟨hheap, hhead, htail, heaten⟩ := applyCachedDirection_eq_some hs1
  have hchain1 : IsChain s1 ((a0, P0) :: rest) := hchain.congr_snake hheap hhead htail
  have he1 : s1.eaten = false := heaten.trans he
  have hhp : s1.getHeadPos = some P0 := hchain1.getHeadPos_eq
  by_cases hap : P0 = g.apple
  · obtain ⟨⟨apple1, rng1⟩, hsp⟩ := hspawn hap
    obtain ⟨s2, s3, hadd, hupd, hchain3, hdir3, hidx3, heaten3, _⟩ :=
      grow_advance_of_chain s1 a0 P0 rest hchain1
    have hhp3 : s3.getHeadPos = some (moveHead s1.direction P0) := by
      rw [List.cons_append] at hchain3
      exact hchain3.getHeadPos_eq
    have heat : eatApple fuel board draws g.occupied g.apple g.rng s1
        = some (true, apple1, rng1, s2) := by
      unfold eatApple
      simp only [hhp, hap, if_true, hsp, hadd]
    have hocc : updateOccupied g.occupied true s3
        = some (insert (moveHead s1.direction P0) g.occupied) := by
      unfold updateOccupied
      simp [hhp3]
    refine ⟨s1,
      { state := if collision board g.occupied (moveHead s1.direction P0)
          then GameState.gameOver else g.state,
        snake := s3, occupied := insert (moveHead s1.direction P0) g.occupied,
        apple := apple1, count := 1, cachedDirection := none, rng := rng1 },
      hs1, ?_, rfl, rfl, rfl, heaten3, hdir3, hidx3, hhp3,
      fun hne => absurd hap hne, fun _ => ⟨?_, rfl, hsp⟩⟩
    · unfold tick
      simp only [hs1, heat, hupd, hhp3, hocc]
    · rw [← hheap]
      exact hchain3
  · obtain ⟨s3, hupd, hchain3, hdir3, hidx3, heaten3, _⟩ :=
      advance_of_chain s1 a0 P0 rest hchain1 he1
    have hhp3 : s3.getHeadPos = some (moveHead s1.direction P0) := hchain3.getHeadPos_eq
    have htp3 : s3.getTailPos
        = some (lastCell (shiftFrom P0 rest) (moveHead s1.direction P0)) :=
      hchain3.getTailPos_eq
    have heat : eatApple fuel board draws g.occupied g.apple g.rng s1
        = some (false, g.apple, g.rng, s1) := by
      unfold eatApple
      simp only [hhp, hap, if_false]
    have hocc : updateOccupied g.occupied false s3
        = some ((insert (moveHead s1.direction P0) g.occupied).erase
          (lastCell (shiftFrom P0 rest) (moveHead s1.direction P0))) := by
      unfold updateOccupied
      simp [hhp3, htp3]
    refine ⟨s1,
      { state := if collision board g.occupied (moveHead s1.direction P0)
          then GameState.gameOver else g.state,
        snake := s3,
        occupied := (insert (moveHead s1.direction P0) g.occupied).erase
          (lastCell (shiftFrom P0 rest) (moveHead s1.direction P0)),
        apple := g.apple, count := 1, cachedDirection := none, rng := g.rng },
      hs1, ?_, rfl, rfl, rfl, heaten3, hdir3, hidx3, hhp3,
      fun _ => ⟨hchain3, rfl, rfl, rfl⟩, fun h => absurd h hap⟩
    unfold tick
    simp only [hs1, heat, hupd, hhp3, hocc]

/-- The state and head after a tick that returns. -/
theorem tick_eq_some {fuel : Nat} {board : Int × Int} {draws : Nat → Nat} {g g1 : Game}
    (h : tick fuel board draws g = some g1) :
    ∃ headPos, g1.snake.getHeadPos = some headPos ∧
      g1.state = (if collision board g.occupied headPos then GameState.gameOver else g.state) ∧
      g1.count = 1 ∧ g1.cachedDirection = none := by
  unfold tick at h
  cases h1 : applyCachedDirection g.cachedDirection g.snake with
  | none => simp [h1] at h
  | some snake1 =>
    simp only [h1] at h
    cases h2 : eatApple fuel board draws g.occupied g.apple g.rng snake1 with
    | none => simp [h2] at h
    | some r =>
      obtain ⟨eaten, apple, rng, snake2⟩ := r
      simp only [h2] at h
      cases h3 : snake2.update with
      | none => simp [h3] at h
      | some snake3 =>
        simp only [h3] at h
        cases h4 : snake3.getHeadPos with
        | none => simp [h4] at h
        | some headPos =>
          simp only [h4] at h
          cases h5 : updateOccupied g.occupied eaten snake3 with
          | none => simp [h5] at h
          | some occupied =>
            simp only [h5, Option.some.injEq] at h
            subst h
            exact ⟨headPos, h4, rfl, rfl, rfl⟩

/-! ## Frames and runs -/

theorem exists_of_returnsWith (run : Option Game) (P : Game → Prop) [DecidablePred P]
    (h : returnsWith run (fun g => decide (P g)) = true) : ∃ g, run = some g ∧ P g := by
  cases run with
  | none => simp [returnsWith] at h
  | some g => exact ⟨g, rfl, by simpa [returnsWith] using h⟩

theorem reachable_of_runFrames (fuel : Nat) (draws : Nat → Nat) :
    ∀ (inputs : List Keys) (g0 g : Game), Reachable draws g0 →
      runFrames fuel numCells draws inputs g0 = some g → Reachable draws g
  | [], g0, g, h0, h => by
    simp only [runFrames, Option.some.injEq] at h
    exact h ▸ h0
  | keys :: rest, g0, g, h0, h => by
    simp only [runFrames] at h
    cases hf : frame fuel numCells draws keys g0 with
    | none => simp [hf] at h
    | some g1 =>
      simp only [hf] at h
      exact reachable_of_runFrames fuel draws rest g1 g (Reachable.step fuel keys g0 g1 h0 hf) h

theorem reachable_of_runMain (fuel : Nat) (draws : Nat → Nat) (inputs : List Keys) (g : Game)
    (h : runMain fuel draws inputs = some g) : Reachable draws g := by
  unfold runMain at h
  cases hi : initGame fuel draws with
  | none => simp [hi] at h
  | some g0 =>
    simp only [hi] at h
    exact reachable_of_runFrames fuel draws inputs g0 g (Reachable.init fuel g0 hi) h

/-- A running frame on which a tick is due and P is not pressed is the tick, run on
the state with the turn keys read. -/
theorem frame_eq_tick (fuel : Nat) (board : Int × Int) (draws : Nat → Nat) (keys : Keys)
    (g : Game) (hrun : g.state = GameState.running)
    (htick : Int.tmod g.count moveEvery = 0) (hp : keys.p = false) :
    frame fuel board draws keys g
      = tick fuel board draws { g with cachedDirection := readTurnKeys keys g.cachedDirection } := by
  unfold frame
  simp only [hrun, htick, if_true, hp]
  generalize tick fuel board draws _ = t
  cases t <;> rfl

/-! ## Frames, case by case -/

theorem spawn_of_tick_eq_some {fuel : Nat} {board : Int × Int} {draws : Nat → Nat}
    {g g1 : Game} {P0 : Pos} (h : tick fuel board draws g = some g1)
    (hhead : g.snake.getHeadPos = some P0) (hap : P0 = g.apple) :
    ∃ r, spawnApple fuel board.1 board.2 g.occupied draws g.rng = some r := by
  unfold tick at h
  cases h1 : applyCachedDirection g.cachedDirection g.snake with
  | none => simp [h1] at h
  | some snake1 =>
    simp only [h1] at h
    obtain ⟨hheap, hhd, _, _⟩ := applyCachedDirection_eq_some h1
    have hhead1 : snake1.getHeadPos = some P0 := by
      unfold Snake.getHeadPos at hhead ⊢
      rw [hheap, hhd]
      exact hhead
    cases hsp : spawnApple fuel board.1 board.2 g.occupied draws g.rng with
    | some r => exact ⟨r, rfl⟩
    | none =>
      have : eatApple fuel board draws g.occupied g.apple g.rng snake1 = none := by
        unfold eatApple
        simp only [hhead1, hap, if_true, hsp]
      simp [this] at h

/-- A frame that returns either leaves everything but the game state, the buffered
turn and the frame counter alone, or runs the tick. -/
theorem frame_eq_some_cases {fuel : Nat} {board : Int × Int} {draws : Nat → Nat}
    {keys : Keys} {g g1 : Game} (h : frame fuel board draws keys g = some g1) :
    (ticks g = false ∧ g1.snake = g.snake ∧ g1.occupied = g.occupied ∧ g1.apple = g.apple ∧
      g1.rng = g.rng ∧
      g1.count = (if g.state = GameState.running then g.count + 1 else g.count) ∧
      g1.cachedDirection = (if g.state = GameState.running
        then readTurnKeys keys g.cachedDirection else g.cachedDirection)) ∨
    (ticks g = true ∧ ∃ g3,
      tick fuel board draws { g with cachedDirection := readTurnKeys keys g.cachedDirection }
        = some g3 ∧
      g1.snake = g3.snake ∧ g1.occupied = g3.occupied ∧ g1.apple = g3.apple ∧
      g1.rng = g3.rng ∧ g1.count = g3.count ∧ g1.cachedDirection = g3.cachedDirection ∧
      g1.state = (if keys.p then GameState.paused else g3.state)) := by
  unfold frame at h
  cases hs : g.state with
  | starting =>
    simp only [hs, Option.some.injEq] at h
    subst h
    left
    refine ⟨by simp [ticks, hs], ?_⟩
    split <;> simp
  | paused =>
    simp only [hs, Option.some.injEq] at h
    subst h
    left
    refine ⟨by simp [ticks, hs], ?_⟩
    split <;> simp
  | gameOver =>
    simp only [hs, Option.some.injEq] at h
    subst h
    left
    exact ⟨by simp [ticks, hs], by simp⟩
  | running =>
    simp only [hs] at h
    by_cases hc : Int.tmod g.count moveEvery = 0
    · simp only [hc, if_true] at h
      right
      refine ⟨by simp [ticks, hs, hc], ?_⟩
      cases ht : tick fuel board draws
          { g with cachedDirection := readTurnKeys keys g.cachedDirection } with
      | none =>
        rw [hs] at ht
        simp [ht] at h
      | some g3 =>
        rw [hs] at ht
        simp only [ht, Option.some.injEq] at h
        subst h
        refine ⟨g3, ht, ?_⟩
        split <;> simp
    · simp only [hc, if_false, Option.some.injEq] at h
      subst h
      left
      refine ⟨by simp [ticks, hs, hc], ?_⟩
      split <;> simp


/-! ## Turns -/

theorem nextDirection_eq (s : Snake) (h0 : 0 ≤ s.directionIndex) :
    ∃ d, compassAt ((s.directionIndex + 1) % 4) = some d ∧
      s.nextDirection = some { s with direction := d,
                                      directionIndex := (s.directionIndex + 1) % 4 } := by
  have ht : Int.tmod (s.directionIndex + 1) 4 = (s.directionIndex + 1) % 4 :=
    Int.tmod_eq_emod (by omega) (by omega)
  obtain ⟨d, hd⟩ := compassAt_isSome ((s.directionIndex + 1) % 4) (by omega) (by omega)
  refine ⟨d, hd, ?_⟩
  unfold Snake.nextDirection
  simp only [ht, hd]

theorem prevDirection_eq (s : Snake) (h0 : 0 ≤ s.directionIndex) :
    ∃ d, compassAt ((s.directionIndex + 3) % 4) = some d ∧
      s.prevDirection = some { s with direction := d,
                                      directionIndex := (s.directionIndex + 3) % 4 } := by
  have ht : Int.tmod (s.directionIndex - 1 + 4) 4 = (s.directionIndex + 3) % 4 := by
    rw [Int.tmod_eq_emod (by omega) (by omega)]
    congr 1
    omega
  obtain ⟨d, hd⟩ := compassAt_isSome ((s.directionIndex + 3) % 4) (by omega) (by omega)
  refine ⟨d, hd, ?_⟩
  unfold Snake.prevDirection
  simp only [ht, hd]

theorem compass_quarter (i j : Int) (d d1 : Directions) (h0 : 0 ≤ i) (h3 : i ≤ 3)
    (hj : j = (i + 1) % 4 ∨ j = (i + 3) % 4 ∨ j = i)
    (hd : compassAt i = some d) (hd1 : compassAt j = some d1) (c : Pos) :
    moveHead d1 (moveHead d c) ≠ c := by
  obtain ⟨x, y⟩ := c
  have hi : i = 0 ∨ i = 1 ∨ i = 2 ∨ i = 3 := by omega
  rcases hi with rfl | rfl | rfl | rfl <;> rcases hj with rfl | rfl | rfl <;>
    (simp [compassAt, compass] at hd hd1
     subst hd hd1
     simp [moveHead]) <;> omega

/-! ## Paths and cell sets -/

theorem PathOK_dropLast : ∀ (l : List Pos), PathOK l → PathOK l.dropLast
  | [], _ => trivial
  | [_], _ => trivial
  | [_, _], _ => trivial
  | [a, b, _], h => h.1
  | a :: b :: c :: d :: rest, h => by
    have ih := PathOK_dropLast (b :: c :: d :: rest) h.2.2
    have e : (a :: b :: c :: d :: rest).dropLast = a :: b :: c :: (d :: rest).dropLast := rfl
    have e1 : (b :: c :: d :: rest).dropLast = b :: c :: (d :: rest).dropLast := rfl
    rw [e]
    rw [e1] at ih
    exact ⟨h.1, h.2.1, ih⟩

theorem PathOK_cons (h c0 c1 : Pos) (tl : List Pos) (hadj : Adjacent h c0) (hne : h ≠ c1)
    (hp : PathOK (c0 :: c1 :: tl)) : PathOK (h :: c0 :: c1 :: tl) :=
  ⟨hadj, hne, hp⟩

theorem adjacent_moveHead (d : Directions) (c : Pos) : Adjacent (moveHead d c) c := by
  obtain ⟨x, y⟩ := c
  cases d <;> simp [moveHead, Adjacent]

theorem toFinset_erase_getLast (l : List Pos) (hl : l ≠ []) (hnd : l.Nodup) :
    l.toFinset.erase (l.getLast hl) = l.dropLast.toFinset ∧ l.dropLast.Nodup := by
  have hsplit := List.dropLast_append_getLast hl
  have hnd1 : (l.dropLast ++ [l.getLast hl]).Nodup := by rw [hsplit]; exact hnd
  have hnd2 := List.nodup_append.mp hnd1
  have hnot : l.getLast hl ∉ l.dropLast := fun hm => hnd2.2.2 hm (by simp)
  refine ⟨?_, hnd2.1⟩
  have hmem : ∀ x, x ∈ l ↔ x ∈ l.dropLast ∨ x = l.getLast hl := by
    intro x
    conv_lhs => rw [← hsplit]
    simp
  ext x
  simp only [Finset.mem_erase, List.mem_toFinset, hmem]
  constructor
  · rintro ⟨hne, hx | hx⟩
    · exact hx
    · exact absurd hx hne
  · intro hx
    exact ⟨fun he => hnot (he ▸ hx), Or.inl hx⟩

/-! ## The invariant -/

theorem applyCachedDirection_index {c : Option Int} {s s1 : Snake}
    (h : applyCachedDirection c s = some s1) (h0 : 0 ≤ s.directionIndex)
    (hd : compassAt s.directionIndex = some s.direction) :
    (s1.directionIndex = (s.directionIndex + 1) % 4 ∨
      s1.directionIndex = (s.directionIndex + 3) % 4 ∨
      s1.directionIndex = s.directionIndex) ∧
    compassAt s1.directionIndex = some s1.direction ∧
    (c = none → s1 = s) ∧
    (c = some 1 → s.nextDirection = some s1) ∧
    (∀ v, c = some v → v ≠ 1 → s.prevDirection = some s1) := by
  unfold applyCachedDirection at h
  cases c with
  | none =>
    simp only [Option.some.injEq] at h
    subst h
    exact ⟨Or.inr (Or.inr rfl), hd, fun _ => rfl, fun hc => Option.noConfusion hc,
      fun v hc => Option.noConfusion hc⟩
  | some v =>
    simp only at h
    by_cases hv : v = 1
    · rw [if_pos hv] at h
      obtain ⟨d, hcd, hnext⟩ := nextDirection_eq s h0
      rw [hnext] at h
      simp only [Option.some.injEq] at h
      subst h
      exact ⟨Or.inl rfl, hcd, fun hc => Option.noConfusion hc, fun _ => hnext,
        fun w hc hw => absurd ((Option.some.inj hc).symm.trans hv) hw⟩
    · rw [if_neg hv] at h
      obtain ⟨d, hcd, hprev⟩ := prevDirection_eq s h0
      rw [hprev] at h
      simp only [Option.some.injEq] at h
      subst h
      exact ⟨Or.inr (Or.inl rfl), hcd, fun hc => Option.noConfusion hc,
        fun hc => absurd (Option.some.inj hc) hv, fun _ _ _ => hprev⟩

theorem tmod_moveEvery_eq_zero (count : Int) (h1 : 1 ≤ count) (h20 : count ≤ 20) :
    Int.tmod count moveEvery = 0 ↔ count = 20 := by
  unfold moveEvery
  rw [Int.tmod_eq_emod (by omega) (by omega)]
  omega

theorem GameInv.of_initGame {fuel : Nat} {draws : Nat → Nat} {g : Game}
    (h : initGame fuel draws = some g) :
    GameInv g [(0, (20, 10)), (1, (19, 10))] ∧ g.count = 1 ∧
      g.state = GameState.starting := by
  unfold initGame at h
  simp only at h
  split at h
  · cases h
  · simp only [Option.some.injEq] at h
    subst h
    refine ⟨⟨?_, by decide, rfl, ?_, ?_, ?_, by decide, ?_,
      ?_, ?_, fun _ => rfl⟩, rfl, rfl⟩
    · show IsChain (Snake.new (numCells.1 / 2, numCells.2 / 2)) _
      decide
    · dsimp only
      decide
    · dsimp only
      decide
    · dsimp only
      decide
    · intro c0 c1 tl hc
      simp only [List.map_cons, List.map_nil, List.cons.injEq] at hc
      obtain ⟨rfl, rfl, _⟩ := hc
      dsimp only
      decide
    · dsimp only
      decide
    · dsimp only
      decide
theorem length_shiftFrom (segs : List (Nat × Pos)) (c : Pos) :
    (shiftFrom c segs).length = segs.length := by
  have := congrArg List.length (map_fst_shiftFrom segs c)
  simpa using this

theorem grows_eq_of_chain {g : Game} {a0 : Nat} {P0 : Pos} {rest : List (Nat × Pos)}
    (hchain : IsChain g.snake ((a0, P0) :: rest)) (ht : ticks g = true) :
    grows g = decide (P0 = g.apple) := by
  unfold grows
  rw [ht, hchain.getHeadPos_eq]
  simp

/-- A frame that returns keeps the invariant; the chain gets one segment more
exactly when the frame calls `addNode`. -/
theorem GameInv.of_frame {fuel : Nat} {board : Int × Int} {draws : Nat → Nat} {keys : Keys}
    {g g1 : Game} {segs : List (Nat × Pos)} (hinv : GameInv g segs)
    (h : frame fuel board draws keys g = some g1) :
    ∃ segs1, GameInv g1 segs1 ∧
      segs1.length = (if grows g then segs.length + 1 else segs.length) ∧
      g1.count = (if ticks g then 1
        else if g.state = GameState.running then g.count + 1 else g.count) := by
  rcases frame_eq_some_cases h with
    ⟨hnt, hsnake, _, _, _, hcount, hcached⟩ |
    ⟨ht, g3, htick, hsnake, _, _, _, hcount, hcached, _⟩
  · have hg : grows g = false := by simp [grows, hnt]
    refine ⟨segs, ?_, by simp [hg], by simp [hnt, hcount]⟩
    have hc20 : g.state = GameState.running → g.count ≠ 20 := by
      intro hr hc
      have := (tmod_moveEvery_eq_zero g.count hinv.count1 hinv.count20).mpr hc
      simp [ticks, hr, this] at hnt
    refine ⟨by rw [hsnake]; exact hinv.chain, hinv.long, by rw [hsnake]; exact hinv.eaten,
      by rw [hsnake]; exact hinv.idx0, by rw [hsnake]; exact hinv.idx3,
      by rw [hsnake]; exact hinv.dir, hinv.path, by rw [hsnake]; exact hinv.facing,
      ?_, ?_, ?_⟩
    · rw [hcount]
      have := hinv.count1
      split <;> omega
    · rw [hcount]
      have := hinv.count20
      split
      · rename_i hr
        have := hc20 hr
        omega
      · omega
    · intro h1
      rw [hcount] at h1
      rw [hcached]
      by_cases hr : g.state = GameState.running
      · rw [if_pos hr] at h1
        have := hinv.count1
        omega
      · rw [if_neg hr] at h1 ⊢
        exact hinv.buffer h1
  · obtain ⟨a0, P0, r1, rest1, rfl⟩ : ∃ a0 P0 r1 rest1, segs = (a0, P0) :: r1 :: rest1 := by
      have := hinv.long
      match segs, this with
      | (a0, P0) :: r1 :: rest1, _ => exact ⟨a0, P0, r1, rest1, rfl⟩
    have hchain := hinv.chain
    have hhead : g.snake.getHeadPos = some P0 := hchain.getHeadPos_eq
    obtain ⟨s1, g3a, hs1, htk, _, hc1, hcd, hea, hdir, hidx, _, hng, hgr⟩ :=
      tick_of_chain fuel board draws
        { g with cachedDirection := readTurnKeys keys g.cachedDirection } a0 P0 (r1 :: rest1)
        hchain hinv.eaten hinv.idx0 (fun hap => spawn_of_tick_eq_some htick hhead hap)
    have hg3 : g3a = g3 := Option.some.inj (htk.symm.trans htick)
    subst hg3
    obtain ⟨hrel0, hcomp, _⟩ := applyCachedDirection_index hs1 hinv.idx0 hinv.dir
    have hrel : s1.directionIndex = (g.snake.directionIndex + 1) % 4 ∨
        s1.directionIndex = (g.snake.directionIndex + 3) % 4 ∨
        s1.directionIndex = g.snake.directionIndex := hrel0
    have hi0 := hinv.idx0
    have hi3 := hinv.idx3
    have hfac : P0 = moveHead g.snake.direction r1.2 := hinv.facing P0 r1.2 _ rfl
    have hne : moveHead s1.direction P0 ≠ r1.2 := by
      have := compass_quarter g.snake.directionIndex s1.directionIndex g.snake.direction
        s1.direction hi0 hi3 hrel hinv.dir hcomp r1.2
      rw [← hfac] at this
      exact this
    have hfull : PathOK (moveHead s1.direction P0 :: P0 :: r1.2 :: rest1.map Prod.snd) :=
      PathOK_cons _ _ _ _ (adjacent_moveHead _ _) hne hinv.path
    have hgrow : grows g = decide (P0 = g.apple) := grows_eq_of_chain hchain ht
    have hcount1 : g1.count = (if ticks g then 1
        else if g.state = GameState.running then g.count + 1 else g.count) := by
      rw [hcount, hc1, ht]
      rfl
    by_cases hap : P0 = g.apple
    · obtain ⟨hchain3, _, _⟩ := hgr hap
      have hcells : (((a0, moveHead s1.direction P0) :: shiftFrom P0 (r1 :: rest1)) ++
          [(g.snake.heap.length, lastCell (r1 :: rest1) P0)]).map Prod.snd
          = moveHead s1.direction P0 :: P0 :: r1.2 :: rest1.map Prod.snd := by
        simp only [List.cons_append, List.map_cons, List.map_append, map_snd_shiftFrom,
          List.map_nil, lastCell_eq_getLast]
        rw [List.dropLast_append_getLast]
      refine ⟨_, ⟨by rw [hsnake]; exact hchain3, by simp, by rw [hsnake]; exact hea,
        by rw [hsnake, hidx]; omega, by rw [hsnake, hidx]; omega,
        by rw [hsnake, hidx, hdir]; exact hcomp, by rw [hcells]; exact hfull, ?_,
        by rw [hcount, hc1], by rw [hcount, hc1]; decide,
        fun _ => by rw [hcached, hcd]⟩, ?_, hcount1⟩
      · intro c0 c1 tl hc
        rw [hcells] at hc
        simp only [List.cons.injEq] at hc
        rw [hsnake, hdir, ← hc.1, ← hc.2.1]
      · simp [hgrow, hap, length_shiftFrom]
    · obtain ⟨hchain3, _, _⟩ := hng hap
      have hcells : ((a0, moveHead s1.direction P0) :: shiftFrom P0 (r1 :: rest1)).map Prod.snd
          = (moveHead s1.direction P0 :: P0 :: r1.2 :: rest1.map Prod.snd).dropLast := by
        simp only [List.map_cons, map_snd_shiftFrom]
        rfl
      refine ⟨_, ⟨by rw [hsnake]; exact hchain3, by simp [length_shiftFrom],
        by rw [hsnake]; exact hea,
        by rw [hsnake, hidx]; omega, by rw [hsnake, hidx]; omega,
        by rw [hsnake, hidx, hdir]; exact hcomp,
        by rw [hcells]; exact PathOK_dropLast _ hfull, ?_,
        by rw [hcount, hc1], by rw [hcount, hc1]; decide,
        fun _ => by rw [hcached, hcd]⟩, ?_, hcount1⟩
      · intro c0 c1 tl hc
        rw [hcells] at hc
        have e : (moveHead s1.direction P0 :: P0 :: r1.2 :: rest1.map Prod.snd).dropLast
            = moveHead s1.direction P0 :: P0 :: (r1.2 :: rest1.map Prod.snd).dropLast := rfl
        rw [e] at hc
        simp only [List.cons.injEq] at hc
        rw [hsnake, hdir, ← hc.1, ← hc.2.1]
      · simp [hgrow, hap, length_shiftFrom]

theorem ticks_iff (g : Game) :
    ticks g = true ↔ g.state = GameState.running ∧ Int.tmod g.count moveEvery = 0 := by
  simp [ticks]

/-- Every reachable state satisfies the invariant; its chain has two segments more
than `addNode` was called, and its frame counter is one more than the number of
running frames so far, taken modulo 20. -/
theorem inv_of_reachableCounted {draws : Nat → Nat} {running added : Nat} {g : Game}
    (h : ReachableCounted draws running added g) :
    ∃ segs, GameInv g segs ∧ segs.length = added + 2 ∧
      g.count = ((running % 20 : Nat) : Int) + 1 := by
  induction h with
  | init fuel g hinit =>
    obtain ⟨hinv, hc, _⟩ := GameInv.of_initGame hinit
    exact ⟨_, hinv, rfl, by rw [hc]; rfl⟩
  | step fuel keys g g1 running added _ hframe ih =>
    obtain ⟨segs, hinv, hlen, hcount⟩ := ih
    obtain ⟨segs1, hinv1, hlen1, hcount1⟩ := hinv.of_frame hframe
    refine ⟨segs1, hinv1, ?_, ?_⟩
    · rw [hlen1]
      split <;> omega
    · rw [hcount1]
      have h1 := hinv.count1
      have h20 := hinv.count20
      by_cases ht : ticks g = true
      · obtain ⟨hr, hz⟩ := (ticks_iff g).mp ht
        have := (tmod_moveEvery_eq_zero g.count h1 h20).mp hz
        rw [if_pos ht, if_pos hr]
        omega
      · rw [if_neg ht]
        by_cases hr : g.state = GameState.running
        · have hz : ¬ Int.tmod g.count moveEvery = 0 := fun hz => ht ((ticks_iff g).mpr ⟨hr, hz⟩)
          have := (tmod_moveEvery_eq_zero g.count h1 h20).not.mp hz
          rw [if_pos hr, if_pos hr]
          omega
        · rw [if_neg hr, if_neg hr]
          exact hcount

theorem reachableCounted_of_reachable {draws : Nat → Nat} {g : Game}
    (h : Reachable draws g) : ∃ running added, ReachableCounted draws running added g := by
  induction h with
  | init fuel g hinit => exact ⟨0, 0, ReachableCounted.init fuel g hinit⟩
  | step fuel keys g g1 _ hframe ih =>
    obtain ⟨r, n, hc⟩ := ih
    exact ⟨_, _, ReachableCounted.step fuel keys g g1 r n hc hframe⟩

theorem reachable_of_reachableCounted {draws : Nat → Nat} {running added : Nat} {g : Game}
    (h : ReachableCounted draws running added g) : Reachable draws g := by
  induction h with
  | init fuel g hinit => exact Reachable.init fuel g hinit
  | step fuel keys g g1 _ _ _ hframe ih => exact Reachable.step fuel keys g g1 ih hframe

theorem inv_of_reachable {draws : Nat → Nat} {g : Game} (h : Reachable draws g) :
    ∃ segs, GameInv g segs := by
  obtain ⟨r, n, hc⟩ := reachableCounted_of_reachable h
  obtain ⟨segs, hinv, _⟩ := inv_of_reachableCounted hc
  exact ⟨segs, hinv⟩

theorem reachableCounted_of_runFramesCounted (fuel : Nat) (draws : Nat → Nat) :
    ∀ (inputs : List Keys) (x y : Nat × Nat × Game), ReachableCounted draws x.1 x.2.1 x.2.2 →
      runFramesCounted fuel draws inputs x = some y → ReachableCounted draws y.1 y.2.1 y.2.2
  | [], x, y, hx, h => by
    simp only [runFramesCounted, Option.some.injEq] at h
    exact h ▸ hx
  | keys :: rest, (running, added, g), y, hx, h => by
    simp only [runFramesCounted] at h
    cases hf : frame fuel numCells draws keys g with
    | none => simp [hf] at h
    | some g1 =>
      simp only [hf] at h
      exact reachableCounted_of_runFramesCounted fuel draws rest _ y
        (ReachableCounted.step fuel keys g g1 running added hx hf) h

theorem reachableCounted_of_runMainCounted (fuel : Nat) (draws : Nat → Nat)
    (inputs : List Keys) (y : Nat × Nat × Game)
    (h : runMainCounted fuel draws inputs = some y) :
    ReachableCounted draws y.1 y.2.1 y.2.2 := by
  unfold runMainCounted at h
  cases hi : initGame fuel draws with
  | none => simp [hi] at h
  | some g0 =>
    simp only [hi] at h
    exact reachableCounted_of_runFramesCounted fuel draws inputs (0, 0, g0) y
      (ReachableCounted.init fuel g0 hi) h

theorem cells_eq_of_heap_eq {s s1 : Snake} (hheap : s1.heap = s.heap)
    (hhead : s1.head = s.head) : s1.cells = s.cells := by
  unfold Snake.cells
  rw [hheap, hhead]

theorem compassAt_eq (i : Int) (h0 : 0 ≤ i) : compassAt i = compass[i.toNat]? := by
  unfold compassAt
  rw [if_pos h0]

/-! ## Tile orientation -/

theorem tailAngle_of_adjacent (t p : Pos) (hadj : Adjacent p t) :
    (tailAngle t p = 0 ↔ p = (t.1 + 1, t.2)) ∧
    (tailAngle t p = 180 ↔ p = (t.1 - 1, t.2)) ∧
    (tailAngle t p = 270 ↔ p = (t.1, t.2 - 1)) ∧
    (tailAngle t p = 90 ↔ p = (t.1, t.2 + 1)) := by
  obtain ⟨t1, t2⟩ := t
  obtain ⟨p1, p2⟩ := p
  simp only [Adjacent] at hadj
  simp only [tailAngle, Prod.mk.injEq]
  split_ifs <;> omega

theorem selectSprite_of_neighbours (c : Pos) (d1 d2 : Directions) (hne : d1 ≠ d2) :
    (AreThe d1 d2 Directions.right Directions.left ∨ AreThe d1 d2 Directions.up Directions.down →
      selectSprite (neighbors c (moveHead d1 c) (moveHead d2 c)) = Sprite.snakeBody) ∧
    (AreThe d1 d2 Directions.right Directions.down →
      selectSprite (neighbors c (moveHead d1 c) (moveHead d2 c)) = Sprite.snakeCornerUpLeft) ∧
    (AreThe d1 d2 Directions.left Directions.down →
      selectSprite (neighbors c (moveHead d1 c) (moveHead d2 c)) = Sprite.snakeCornerUpRight) ∧
    (AreThe d1 d2 Directions.right Directions.up →
      selectSprite (neighbors c (moveHead d1 c) (moveHead d2 c)) = Sprite.snakeCornerDownLeft) ∧
    (selectSprite (neighbors c (moveHead d1 c) (moveHead d2 c)) = Sprite.snakeCornerDownRight ↔
      AreThe d1 d2 Directions.left Directions.up) ∧
    bitsSet (neighbors c (moveHead d1 c) (moveHead d2 c)) = 2 := by
  obtain ⟨x, y⟩ := c
  have e1 : ¬ (x = x + 1) := by omega
  have e2 : ¬ (x = x - 1) := by omega
  have e3 : ¬ (x + 1 = x - 1) := by omega
  have e4 : ¬ (x - 1 = x + 1) := by omega
  have f1 : ¬ (y = y + 1) := by omega
  have f2 : ¬ (y = y - 1) := by omega
  have f3 : ¬ (y + 1 = y - 1) := by omega
  have f4 : ¬ (y - 1 = y + 1) := by omega
  cases d1 <;> cases d2 <;>
    simp [AreThe, selectSprite, neighbors, moveHead, bitsSet, e1, e2, e3, e4, f1, f2, f3, f4]
      at hne ⊢

/-! ## Walks along the links, and paths by index -/

theorem walkNext_of_linked {heap : List Node} :
    ∀ (segs : List (Nat × Pos)) (p : Option Nat) (fuel : Nat),
      Linked heap p segs none → segs.length ≤ fuel →
      walkNext heap fuel (firstAddr segs none) = segs.map Prod.fst
  | [], _, fuel, _, _ => by cases fuel <;> rfl
  | seg :: rest, p, fuel, h, hfuel => by
    obtain ⟨f, rfl⟩ : ∃ f, fuel = f + 1 := ⟨fuel - 1, by simp at hfuel; omega⟩
    have ih := walkNext_of_linked rest (some seg.1) f h.2 (by simp at hfuel; omega)
    rw [show firstAddr (seg :: rest) none = some seg.1 from rfl, walkNext]
    simp only [h.1]
    rw [ih, List.map_cons]

theorem walkPrev_of_linked {heap : List Node} :
    ∀ (segs : List (Nat × Pos)) (nx : Option Nat) (fuel : Nat),
      Linked heap none segs nx → segs.length ≤ fuel →
      walkPrev heap fuel (lastAddr segs none) = (segs.map Prod.fst).reverse := by
  intro segs
  induction segs using List.reverseRecOn with
  | nil =>
    intro nx fuel _ _
    cases fuel <;> rfl
  | append_singleton xs seg ih =>
    intro nx fuel h hfuel
    obtain ⟨f, rfl⟩ : ∃ f, fuel = f + 1 := ⟨fuel - 1, by simp at hfuel; omega⟩
    rw [Linked.append] at h
    have hseg : heap[seg.1]? = some (Node.mk nx (lastAddr xs none) seg.2) := by
      simpa [firstAddr] using h.2.1
    have hih := ih (some seg.1) f (by simpa [firstAddr] using h.1) (by simp at hfuel; omega)
    rw [lastAddr_append_singleton, walkPrev]
    simp only [hseg]
    rw [hih]
    simp

theorem prev_of_next_of_linked {heap : List Node} :
    ∀ (segs : List (Nat × Pos)) (p : Option Nat), Linked heap p segs none →
      ∀ a ∈ segs.map Prod.fst, ∀ nd b, heap[a]? = some nd → nd.next = some b →
        ∃ nb, heap[b]? = some nb ∧ nb.prev = some a
  | [], _, _, a, ha, _, _, _, _ => by simp at ha
  | seg :: rest, p, h, a, ha, nd, b, hnd, hnext => by
    rw [List.map_cons, List.mem_cons] at ha
    rcases ha with rfl | ha
    · have h1 := h.1
      rw [hnd] at h1
      have hnd1 : nd = Node.mk (firstAddr rest none) p seg.2 := Option.some.inj h1
      rw [hnd1] at hnext
      simp only at hnext
      cases rest with
      | nil => simp [firstAddr] at hnext
      | cons r rest1 =>
        simp only [firstAddr, Option.some.injEq] at hnext
        subst hnext
        exact ⟨_, h.2.1, rfl⟩
    · exact prev_of_next_of_linked rest (some seg.1) h.2 a ha nd b hnd hnext

theorem PathOK_adjacent : ∀ (l : List Pos), PathOK l →
    ∀ i a b, l[i]? = some a → l[i + 1]? = some b → Adjacent a b
  | [], _, i, a, b, ha, _ => by simp at ha
  | [_], _, i, a, b, _, hb => by simp at hb
  | [x, y], h, i, a, b, ha, hb => by
    cases i with
    | zero =>
      simp only [List.getElem?_cons_zero, List.getElem?_cons_succ, Option.some.injEq] at ha hb
      subst ha hb
      exact h
    | succ j => simp at hb
  | x :: y :: z :: rest, h, i, a, b, ha, hb => by
    cases i with
    | zero =>
      simp only [List.getElem?_cons_zero, List.getElem?_cons_succ, Option.some.injEq] at ha hb
      subst ha hb
      exact h.1
    | succ j =>
      rw [List.getElem?_cons_succ] at ha hb
      exact PathOK_adjacent (y :: z :: rest) h.2.2 j a b ha hb

theorem PathOK_apart : ∀ (l : List Pos), PathOK l →
    ∀ i a c, l[i]? = some a → l[i + 2]? = some c → a ≠ c
  | [], _, i, a, c, ha, _ => by simp at ha
  | [_], _, i, a, c, _, hc => by simp at hc
  | [_, _], _, i, a, c, _, hc => by simp at hc
  | x :: y :: z :: rest, h, i, a, c, ha, hc => by
    cases i with
    | zero =>
      simp only [List.getElem?_cons_zero, List.getElem?_cons_succ, Option.some.injEq] at ha hc
      subst ha hc
      exact h.2.1
    | succ j =>
      rw [List.getElem?_cons_succ] at ha hc
      exact PathOK_apart (y :: z :: rest) h.2.2 j a c ha hc

theorem adjacent_exists_moveHead (a c : Pos) (h : Adjacent a c) :
    ∃ d, a = moveHead d c := by
  obtain ⟨a1, a2⟩ := a
  obtain ⟨c1, c2⟩ := c
  simp only [Adjacent] at h
  rcases h with ⟨h1, h2 | h2⟩ | ⟨h1, h2 | h2⟩
  · exact ⟨Directions.down, by simp [moveHead, h1, h2]⟩
  · exact ⟨Directions.up, by simp [moveHead]; omega⟩
  · exact ⟨Directions.right, by simp [moveHead, h1, h2]⟩
  · exact ⟨Directions.left, by simp [moveHead]; omega⟩

theorem bitsSet_of_adjacent (c n p : Pos) (hn : Adjacent n c) (hp : Adjacent p c)
    (hne : p ≠ n) : bitsSet (neighbors c n p) = 2 := by
  obtain ⟨d1, rfl⟩ := adjacent_exists_moveHead n c hn
  obtain ⟨d2, rfl⟩ := adjacent_exists_moveHead p c hp
  have hd : d1 ≠ d2 := fun he => hne (by rw [he])
  exact (selectSprite_of_neighbours c d1 d2 hd).2.2.2.2.2

theorem lastAddr_eq_getLast? :
    ∀ (segs : List (Nat × Pos)) (p : Option Nat), segs ≠ [] →
      lastAddr segs p = (segs.map Prod.fst).getLast?
  | [], _, h => absurd rfl h
  | [seg], _, _ => rfl
  | seg :: x :: rest, _, _ => by
    rw [lastAddr, lastAddr_eq_getLast? (x :: rest) (some seg.1) (by simp)]
    simp [List.getLast?_cons_cons]

theorem turn_cells {s s1 : Snake} (h : s.nextDirection = some s1 ∨ s.prevDirection = some s1) :
    s1.cells = s.cells := by
  rcases h with h | h
  · unfold Snake.nextDirection at h
    dsimp only at h
    split at h
    · cases h
    · simp only [Option.some.injEq] at h
      subst h
      rfl
  · unfold Snake.prevDirection at h
    dsimp only at h
    split at h
    · cases h
    · simp only [Option.some.injEq] at h
      subst h
      rfl

/-- The lengths of a chain after `addNode` and after `update`. -/
theorem length_ops_of_chain (s : Snake) (segs : List (Nat × Pos)) (hchain : IsChain s segs)
    (hne : segs ≠ []) :
    (∃ s1, s.addNode = some s1 ∧ s1.cells.length = s.cells.length + 1) ∧
    (s.eaten = false → ∃ s1, s.update = some s1 ∧ s1.cells.length = s.cells.length) ∧
    (∃ s1 s2, s.setEaten.addNode = some s1 ∧ s1.update = some s2 ∧
      s1.cells.length = s.cells.length + 1 ∧ s2.cells.length = s1.cells.length) := by
  obtain ⟨a0, P0, rest, rfl⟩ : ∃ a0 P0 rest, segs = (a0, P0) :: rest := by
    match segs, hne with
    | (a0, P0) :: rest, _ => exact ⟨a0, P0, rest, rfl⟩
  obtain ⟨front, hsplit⟩ :=
    lastAddr_eq_some_split ((a0, P0) :: rest) none s.tail P0 (by simp) hchain.tail
  have hlen : ((a0, P0) :: rest).length = front.length + 1 := by
    rw [hsplit]
    simp
  have hcells : s.cells.length = front.length + 1 := by
    rw [hchain.cells_eq, List.length_map, hlen]
  refine ⟨?_, ?_, ?_⟩
  · obtain ⟨s1, hadd, hchain1, _⟩ := addNode_of_chain s front s.tail _ (hsplit ▸ hchain)
    exact ⟨s1, hadd, by rw [hchain1.cells_eq, hcells]; simp⟩
  · intro he
    obtain ⟨s1, hupd, hchain1, _⟩ := advance_of_chain s a0 P0 rest hchain he
    refine ⟨s1, hupd, ?_⟩
    rw [hchain1.cells_eq, hchain.cells_eq]
    simp [length_shiftFrom]
  · obtain ⟨s1, s2, hadd, hupd, hchain2, _⟩ := grow_advance_of_chain s a0 P0 rest hchain
    have hchainE : IsChain s.setEaten (front ++ [(s.tail, lastCell ((a0, P0) :: rest) P0)]) :=
      (hsplit ▸ hchain).congr_snake rfl rfl rfl
    obtain ⟨s1a, hadd1, hchain1, _⟩ := addNode_of_chain s.setEaten front s.tail _ hchainE
    have hs : s1a = s1 := Option.some.inj (hadd1.symm.trans hadd)
    subst hs
    have h1 : s1a.cells.length = front.length + 2 := by
      rw [hchain1.cells_eq]
      simp
    refine ⟨s1a, s2, hadd, hupd, by rw [h1, hcells], ?_⟩
    rw [hchain2.cells_eq, h1]
    simp only [List.length_map, List.length_append, List.length_cons, length_shiftFrom,
      List.length_nil]
    simp only [List.length_cons] at hlen
    omega
/-! ## Occupancy across a tick -/

theorem frame_of_tick (fuel : Nat) (board : Int × Int) (draws : Nat → Nat) (keys : Keys)
    (g g3 : Game) (hrun : g.state = GameState.running)
    (htick : Int.tmod g.count moveEvery = 0)
    (htk : tick fuel board draws
      { g with cachedDirection := readTurnKeys keys g.cachedDirection } = some g3) :
    frame fuel board draws keys g
      = some (if keys.p then { g3 with state := GameState.paused } else g3) := by
  unfold frame
  rw [hrun] at htk
  simp only [hrun, htick, if_true, htk]

/-- A tick on a state whose occupancy set holds the cells of all segments but the
tail, these being distinct, leaves it so unless the collision test fires. -/
theorem occupancy_of_tick (fuel : Nat) (board : Int × Int) (draws : Nat → Nat) (g : Game)
    (a0 : Nat) (P0 : Pos) (rest : List (Nat × Pos))
    (hchain : IsChain g.snake ((a0, P0) :: rest)) (he : g.snake.eaten = false)
    (hidx : 0 ≤ g.snake.directionIndex)
    (hspawn : P0 = g.apple →
      ∃ r, spawnApple fuel board.1 board.2 g.occupied draws g.rng = some r)
    (hdistinct : g.snake.cells.dropLast.Nodup)
    (hocc : g.occupied = g.snake.cells.dropLast.toFinset) :
    ∃ g3 headPos, tick fuel board draws g = some g3 ∧ g3.snake.getHeadPos = some headPos ∧
      g3.snake.cells.length = (if P0 = g.apple then g.snake.cells.length + 1
        else g.snake.cells.length) ∧
      (collision board g.occupied headPos = false →
        g3.snake.cells.dropLast.Nodup ∧ g3.occupied = g3.snake.cells.dropLast.toFinset) := by
  obtain ⟨s1, g3, _, htk, _, _, _, _, _, _, hhp, hng, hgr⟩ :=
    tick_of_chain fuel board draws g a0 P0 rest hchain he hidx hspawn
  have hC : g.snake.cells = P0 :: rest.map Prod.snd := by
    simpa using hchain.cells_eq
  rw [hC] at hdistinct hocc
  refine ⟨g3, moveHead s1.direction P0, htk, hhp, ?_, ?_⟩
  · by_cases hap : P0 = g.apple
    · obtain ⟨hchain3, _, _⟩ := hgr hap
      rw [if_pos hap, hchain3.cells_eq, hC]
      simp [length_shiftFrom]
    · obtain ⟨hchain3, _, _⟩ := hng hap
      rw [if_neg hap, hchain3.cells_eq, hC]
      simp [length_shiftFrom]
  · intro hcol
    have hfree : moveHead s1.direction P0 ∉ (P0 :: rest.map Prod.snd).dropLast := by
      intro hmem
      have hin : moveHead s1.direction P0 ∈ g.occupied := by
        rw [hocc]
        exact List.mem_toFinset.mpr hmem
      have := (collision_iff board g.occupied (moveHead s1.direction P0)).mpr (Or.inl hin)
      rw [hcol] at this
      cases this
    by_cases hap : P0 = g.apple
    · obtain ⟨hchain3, hocc3, _⟩ := hgr hap
      have hcells : g3.snake.cells
          = moveHead s1.direction P0 :: P0 :: rest.map Prod.snd := by
        rw [hchain3.cells_eq]
        simp only [List.cons_append, List.map_cons, List.map_append, map_snd_shiftFrom,
          List.map_nil, lastCell_eq_getLast]
        rw [List.dropLast_append_getLast]
      have hdl : g3.snake.cells.dropLast
          = moveHead s1.direction P0 :: (P0 :: rest.map Prod.snd).dropLast := by
        rw [hcells]
        rfl
      rw [hdl, hocc3, hocc]
      exact ⟨List.nodup_cons.mpr ⟨hfree, hdistinct⟩, by rw [List.toFinset_cons]⟩
    · obtain ⟨hchain3, hocc3, _⟩ := hng hap
      have hcells : g3.snake.cells
          = moveHead s1.direction P0 :: (P0 :: rest.map Prod.snd).dropLast := by
        rw [hchain3.cells_eq, List.map_cons, map_snd_shiftFrom]
      have hnd : (moveHead s1.direction P0 :: (P0 :: rest.map Prod.snd).dropLast).Nodup :=
        List.nodup_cons.mpr ⟨hfree, hdistinct⟩
      have hlast : lastCell (shiftFrom P0 rest) (moveHead s1.direction P0)
          = (moveHead s1.direction P0 :: (P0 :: rest.map Prod.snd).dropLast).getLast
            (List.cons_ne_nil _ _) := by
        rw [lastCell_eq_getLast]
        simp only [map_snd_shiftFrom]
      obtain ⟨herase, hnd1⟩ := toFinset_erase_getLast _ (List.cons_ne_nil _ _) hnd
      rw [hcells, hocc3, hlast, hocc, ← List.toFinset_cons, herase]
      exact ⟨hnd1, rfl⟩

/-! ## The turn buffer across a tick window -/

theorem readTurnKeys_of_noTurn (k : Keys) (c : Option Int) (h : noTurn k) :
    readTurnKeys k c = c := by
  unfold noTurn turnsForward turnsBackward at h
  unfold readTurnKeys
  simp only [not_or, Bool.not_eq_true] at h
  simp [h.1.1, h.1.2, h.2.1, h.2.2]

theorem readTurnKeys_of_forward (k : Keys) (c : Option Int) (h : turnsForward k) :
    readTurnKeys k c = some 1 := by
  unfold turnsForward at h
  unfold readTurnKeys
  rcases h with h | h <;> simp [h]

theorem readTurnKeys_of_backward (k : Keys) (c : Option Int) (hf : ¬ turnsForward k)
    (h : turnsBackward k) : readTurnKeys k c = some (-1) := by
  unfold turnsForward at hf
  unfold turnsBackward at h
  unfold readTurnKeys
  simp only [not_or, Bool.not_eq_true] at hf
  rcases h with h | h <;> simp [hf.1, hf.2, h]

theorem foldl_readTurnKeys_of_noTurn :
    ∀ (frames : List Keys) (c : Option Int), (∀ k ∈ frames, noTurn k) →
      frames.foldl (fun c k => readTurnKeys k c) c = c
  | [], _, _ => rfl
  | k :: frames, c, h => by
    rw [List.foldl_cons, readTurnKeys_of_noTurn k c (h k (List.mem_cons_self _ _))]
    exact foldl_readTurnKeys_of_noTurn frames c (fun j hj => h j (List.mem_cons_of_mem _ hj))

theorem foldl_readTurnKeys_last (early late : List Keys) (k : Keys) (c : Option Int)
    (hlate : ∀ j ∈ late, noTurn j) :
    (early ++ k :: late).foldl (fun c k => readTurnKeys k c) c
      = readTurnKeys k (early.foldl (fun c k => readTurnKeys k c) c) := by
  rw [List.foldl_append, List.foldl_cons, foldl_readTurnKeys_of_noTurn late _ hlate]

theorem applyCachedDirection_cases {c : Option Int} {s s1 : Snake}
    (h : applyCachedDirection c s = some s1) :
    (c = none → s1 = s) ∧ (c = some 1 → s.nextDirection = some s1) ∧
    (c = some (-1) → s.prevDirection = some s1) := by
  unfold applyCachedDirection at h
  refine ⟨?_, ?_, ?_⟩
  · intro hc
    subst hc
    exact (Option.some.inj h).symm
  · intro hc
    subst hc
    simpa using h
  · intro hc
    subst hc
    simpa using h

theorem frame_of_count (fuel : Nat) (board : Int × Int) (draws : Nat → Nat) (keys : Keys)
    (g : Game) (hrun : g.state = GameState.running)
    (hcount : Int.tmod g.count moveEvery ≠ 0) :
    frame fuel board draws keys g
      = some { g with
          state := if keys.p then GameState.paused else GameState.running,
          cachedDirection := readTurnKeys keys g.cachedDirection,
          count := g.count + 1 } := by
  unfold frame
  simp only [hrun, hcount, if_false]
  cases keys.p <;> simp [hrun]

theorem frame_of_paused (fuel : Nat) (board : Int × Int) (draws : Nat → Nat) (keys : Keys)
    (g : Game) (hst : g.state = GameState.paused) :
    frame fuel board draws keys g
      = some { g with
          state := if keys.p then GameState.running else GameState.paused } := by
  unfold frame
  simp only [hst]
  cases keys.p
  · cases g
    simp only at hst
    subst hst
    rfl
  · rfl

theorem frame_of_gameOver (fuel : Nat) (board : Int × Int) (draws : Nat → Nat) (keys : Keys)
    (g : Game) (hst : g.state = GameState.gameOver) :
    frame fuel board draws keys g = some g := by
  unfold frame
  simp only [hst]

/-- Frames that do not begin in the running state leave the snake, `count` and the
buffer as they are. -/
theorem runFrames_of_not_running (fuel : Nat) (board : Int × Int) (draws : Nat → Nat) :
    ∀ (inputs : List Keys) (g : Game), g.state ≠ GameState.starting →
      runningInputs fuel board draws inputs g = [] →
      ∃ g1, runFrames fuel board draws inputs g = some g1 ∧ g1.snake = g.snake ∧
        g1.count = g.count ∧ g1.cachedDirection = g.cachedDirection
  | [], g, _, _ => ⟨g, rfl, rfl, rfl, rfl⟩
  | k :: rest, g, hst, hnone => by
    simp only [runningInputs, List.append_eq_nil] at hnone
    obtain ⟨hnr, hrest⟩ := hnone
    have hnr1 : g.state ≠ GameState.running := by
      intro hc
      rw [if_pos hc] at hnr
      cases hnr
    cases hs : g.state with
    | starting => exact absurd hs hst
    | running => exact absurd hs hnr1
    | paused =>
      have hf := frame_of_paused fuel board draws k g hs
      rw [hf] at hrest
      simp only [runFrames, hf]
      obtain ⟨g1, h1, h2, h3, h4⟩ := runFrames_of_not_running fuel board draws rest _
        (by dsimp only; cases k.p <;> simp) hrest
      exact ⟨g1, h1, h2, h3, h4⟩
    | gameOver =>
      have hf := frame_of_gameOver fuel board draws k g hs
      rw [hf] at hrest
      simp only [runFrames, hf]
      exact runFrames_of_not_running fuel board draws rest g hst hrest

/-- A run whose running frames are the rest of one tick window, the last of them the
tick frame: the tick applies the turn left in the buffer by the running frames. -/
theorem runFrames_tick_window (fuel : Nat) (board : Int × Int) (draws : Nat → Nat)
    (a0 : Nat) (P0 : Pos) (rest : List (Nat × Pos)) :
    ∀ (inputs : List Keys) (g : Game),
      (g.state = GameState.running ∨ g.state = GameState.paused) →
      1 ≤ g.count → g.count ≤ 20 →
      g.count + (runningInputs fuel board draws inputs g).length = 21 →
      IsChain g.snake ((a0, P0) :: rest) → g.snake.eaten = false →
      0 ≤ g.snake.directionIndex →
      (P0 = g.apple →
        ∃ r, spawnApple fuel board.1 board.2 g.occupied draws g.rng = some r) →
      ∃ g1 s1, runFrames fuel board draws inputs g = some g1 ∧ g1.count = 1 ∧
        g1.cachedDirection = none ∧
        applyCachedDirection
          ((runningInputs fuel board draws inputs g).foldl
            (fun c k => readTurnKeys k c) g.cachedDirection) g.snake = some s1 ∧
        g1.snake.direction = s1.direction ∧
        g1.snake.directionIndex = s1.directionIndex ∧
        g1.snake.getHeadPos = some (moveHead s1.direction P0)
  | [], g, _, _, h20, hlen, _, _, _, _ => by
    simp only [runningInputs, List.length_nil] at hlen
    omega
  | k :: inputs, g, hst, h1, h20, hlen, hchain, he, hidx, hspawn => by
    rcases hst with hrun | hpaused
    · by_cases hc : g.count = 20
      · have htick : Int.tmod g.count moveEvery = 0 :=
          (tmod_moveEvery_eq_zero g.count h1 h20).mpr hc
        obtain ⟨s1, g3, happly, htk, hstate, hcount3, hbuf3, _, hdir3, hidx3, hhp3, _, _⟩ :=
          tick_of_chain fuel board draws
            { g with cachedDirection := readTurnKeys k g.cachedDirection }
            a0 P0 rest hchain he hidx hspawn
        have hf := frame_of_tick fuel board draws k g g3 hrun htick htk
        simp only [runningInputs, hf, if_pos hrun, List.singleton_append,
          List.length_cons] at hlen ⊢
        have hnil : runningInputs fuel board draws inputs
            (if k.p = true then { g3 with state := GameState.paused } else g3) = [] :=
          List.eq_nil_of_length_eq_zero (by omega)
        have hns : (if k.p = true then { g3 with state := GameState.paused } else g3).state
            ≠ GameState.starting := by
          by_cases hp : k.p = true
          · rw [if_pos hp]
            simp
          · rw [if_neg hp, hstate]
            dsimp only
            rw [hrun]
            split <;> simp
        obtain ⟨g1, hr1, hsn, hcn, hbn⟩ :=
          runFrames_of_not_running fuel board draws inputs _ hns hnil
        have hsame : (if k.p = true then { g3 with state := GameState.paused } else g3).snake
            = g3.snake ∧
            (if k.p = true then { g3 with state := GameState.paused } else g3).count
              = g3.count ∧
            (if k.p = true then { g3 with state := GameState.paused }
              else g3).cachedDirection = g3.cachedDirection := by
          by_cases hp : k.p = true
          · rw [if_pos hp]
            exact ⟨rfl, rfl, rfl⟩
          · rw [if_neg hp]
            exact ⟨rfl, rfl, rfl⟩
        rw [hsame.1] at hsn
        rw [hsame.2.1] at hcn
        rw [hsame.2.2] at hbn
        refine ⟨g1, s1, ?_, hcn.trans hcount3, hbn.trans hbuf3, ?_, ?_, ?_, ?_⟩
        · simp only [runFrames, hf]
          exact hr1
        · rw [hnil]
          exact happly
        · rw [hsn]
          exact hdir3
        · rw [hsn]
          exact hidx3
        · rw [hsn]
          exact hhp3
      · have hcount : Int.tmod g.count moveEvery ≠ 0 := fun hz =>
          hc ((tmod_moveEvery_eq_zero g.count h1 h20).mp hz)
        have hf := frame_of_count fuel board draws k g hrun hcount
        simp only [runningInputs, hf, if_pos hrun, List.singleton_append,
          List.length_cons, List.foldl_cons] at hlen ⊢
        obtain ⟨g1, s1, hr1, h2, h3, h4, h5, h6, h7⟩ :=
          runFrames_tick_window fuel board draws a0 P0 rest inputs
            { g with
              state := if k.p then GameState.paused else GameState.running,
              cachedDirection := readTurnKeys k g.cachedDirection,
              count := g.count + 1 }
            (by dsimp only; cases k.p <;> simp) (by dsimp only; omega)
            (by dsimp only; omega)
            (by dsimp only; push_cast at hlen ⊢; omega) hchain he hidx hspawn
        exact ⟨g1, s1, by simpa only [runFrames, hf] using hr1, h2, h3, h4, h5, h6, h7⟩
    · have hf := frame_of_paused fuel board draws k g hpaused
      have hnr : g.state ≠ GameState.running := by
        rw [hpaused]
        simp
      simp only [runningInputs, hf, if_neg hnr, List.nil_append] at hlen ⊢
      obtain ⟨g1, s1, hr1, h2, h3, h4, h5, h6, h7⟩ :=
        runFrames_tick_window fuel board draws a0 P0 rest inputs
          { g with state := if k.p then GameState.running else GameState.paused }
          (by dsimp only; cases k.p <;> simp) h1 h20 hlen hchain he hidx hspawn
      exact ⟨g1, s1, by simpa only [runFrames, hf] using hr1, h2, h3, h4, h5, h6, h7⟩

/-! ## The tail's cell and the occupancy set in the runs of `main` -/

/-- C1 (advance atomicity): for a chain with cells `P0 :: rest` (head to tail) and no
growth pending, `Snake::update` returns, the head is then on the cell one step from
`P0` in the snake's direction (up is row - 1, down is row + 1, left is column - 1,
right is column + 1), every other segment `i` is on the cell segment `i - 1` held
before, the nodes and their links are the same, and the number of segments is
unchanged. -/
theorem update_advance_atomic (s : Snake) (a0 : Nat) (P0 : Pos) (rest : List (Nat × Pos))
    (hchain : IsChain s ((a0, P0) :: rest)) (he : s.eaten = false) :
    ∃ s1, s.update = some s1 ∧
      s.cells = P0 :: rest.map Prod.snd ∧
      s1.cells[0]? = some (moveHead s.direction P0) ∧
      (∀ i, 1 ≤ i → i ≤ rest.length → s1.cells[i]? = (P0 :: rest.map Prod.snd)[i - 1]?) ∧
      s1.cells.length = s.cells.length ∧
      s1.cells = moveHead s.direction P0 :: (P0 :: rest.map Prod.snd).dropLast ∧
      IsChain s1 ((a0, moveHead s.direction P0) :: shiftFrom P0 rest) ∧
      moveHead Directions.up P0 = (P0.1, P0.2 - 1) ∧
      moveHead Directions.down P0 = (P0.1, P0.2 + 1) ∧
      moveHead Directions.left P0 = (P0.1 - 1, P0.2) ∧
      moveHead Directions.right P0 = (P0.1 + 1, P0.2) := by
  obtain ⟨s1, hupd, hchain1, _⟩ := advance_of_chain s a0 P0 rest hchain he
  have hcells : s1.cells = moveHead s.direction P0 :: (P0 :: rest.map Prod.snd).dropLast := by
    rw [hchain1.cells_eq, List.map_cons, map_snd_shiftFrom]
  refine ⟨s1, hupd, by simpa using hchain.cells_eq, ?_, ?_, ?_, hcells, hchain1,
    rfl, rfl, rfl, rfl⟩
  · rw [hcells]
    simp
  · intro i hi1 hi2
    obtain ⟨j, rfl⟩ : ∃ j, i = j + 1 := ⟨i - 1, by omega⟩
    rw [hcells, List.getElem?_cons_succ, List.getElem?_dropLast]
    simp only [List.length_cons, List.length_map, Nat.add_sub_cancel]
    rw [if_pos (by omega)]
  · rw [hcells, hchain.cells_eq]
    simp

/-- Witness of C1 on the chain (5,5), (4,5), (3,5) heading right. -/
theorem update_advance_atomic_witness :
    IsChain exampleSnake [(0, (5, 5)), (1, (4, 5)), (2, (3, 5))] ∧
    exampleSnake.eaten = false ∧
    ∃ s1, exampleSnake.update = some s1 ∧ s1.cells = [(6, 5), (5, 5), (4, 5)] := by
  refine ⟨by decide, rfl, ?_⟩
  obtain ⟨s1, hupd, _, _, _, _, hcells, _⟩ :=
    update_advance_atomic exampleSnake 0 (5, 5) [(1, (4, 5)), (2, (3, 5))] (by decide) rfl
  exact ⟨s1, hupd, by rw [hcells]; decide⟩

/-- C2 (growth duplication): for a chain with cells `P0 :: rest` (head to tail),
`setEaten`, `addNode` and then `update` all return; the chain then has one segment
more, its cells are the head's new cell followed by all the old cells, so the new
tail is on the old tail's cell, every segment `i` from 1 up to the old tail is on
the cell segment `i - 1` held before (the cells of an advance without growth), and
the growth flag is cleared. -/
theorem growth_duplication (s : Snake) (a0 : Nat) (P0 : Pos) (rest : List (Nat × Pos))
    (hchain : IsChain s ((a0, P0) :: rest)) :
    ∃ s1 s2, s.setEaten.addNode = some s1 ∧ s1.update = some s2 ∧
      s2.cells.length = rest.length + 2 ∧
      s2.cells[0]? = some (moveHead s.direction P0) ∧
      (∀ i, 1 ≤ i → i ≤ rest.length + 1 → s2.cells[i]? = (P0 :: rest.map Prod.snd)[i - 1]?) ∧
      s2.cells = moveHead s.direction P0 :: P0 :: rest.map Prod.snd ∧
      (∃ s3, ({ s with eaten := false } : Snake).update = some s3 ∧
        s3.cells = s2.cells.dropLast) ∧
      s2.eaten = false ∧
      IsChain s2 (((a0, moveHead s.direction P0) :: shiftFrom P0 rest) ++
        [(s.heap.length, ((P0 :: rest.map Prod.snd).getLast (List.cons_ne_nil _ _)))]) := by
  obtain ⟨s1, s2, hadd, hupd, hchain2, _, _, heaten, _⟩ :=
    grow_advance_of_chain s a0 P0 rest hchain
  have hcells : s2.cells = moveHead s.direction P0 :: P0 :: rest.map Prod.snd := by
    rw [hchain2.cells_eq]
    simp only [List.cons_append, List.map_cons, List.map_append, map_snd_shiftFrom,
      List.map_nil, lastCell_eq_getLast]
    rw [List.dropLast_append_getLast]
  obtain ⟨s3, hupd3, hchain3, _⟩ := advance_of_chain ({ s with eaten := false } : Snake)
    a0 P0 rest (hchain.congr_snake rfl rfl rfl) rfl
  refine ⟨s1, s2, hadd, hupd, ?_, ?_, ?_, hcells, ⟨s3, hupd3, ?_⟩, heaten, ?_⟩
  · rw [hcells]
    simp
  · rw [hcells]
    simp
  · intro i hi1 hi2
    obtain ⟨j, rfl⟩ : ∃ j, i = j + 1 := ⟨i - 1, by omega⟩
    rw [hcells, List.getElem?_cons_succ]
    simp
  · rw [hcells, hchain3.cells_eq, List.map_cons, map_snd_shiftFrom]
    simp [List.dropLast]
  · rw [← lastCell_eq_getLast]
    exact hchain2

/-- Witness of C2 on the chain (5,5), (4,5), (3,5) heading right. -/
theorem growth_duplication_witness :
    IsChain exampleSnake [(0, (5, 5)), (1, (4, 5)), (2, (3, 5))] ∧
    ∃ s1 s2, exampleSnake.setEaten.addNode = some s1 ∧ s1.update = some s2 ∧
      s2.cells = [(6, 5), (5, 5), (4, 5), (3, 5)] ∧ s2.eaten = false := by
  refine ⟨by decide, ?_⟩
  obtain ⟨s1, s2, hadd, hupd, _, _, _, hcells, _, heaten, _⟩ :=
    growth_duplication exampleSnake 0 (5, 5) [(1, (4, 5)), (2, (3, 5))] (by decide)
  exact ⟨s1, s2, hadd, hupd, by rw [hcells]; decide, heaten⟩

/-- C3 (collision rule): on a running frame on which a tick is due and P is not
pressed, for a board of `board.1` by `board.2` cells: whenever the frame returns,
the game state is then over exactly when the head's new cell is in the occupancy
set as it was before the tick, or its column is outside `0 .. board.1 - 1`, or
its row is outside `0 .. board.2 - 1`, and otherwise the state is still running;
and the frame does return, with the head one step from its old cell in the
direction left by the buffered turn, when the snake is a chain with no growth
pending and a direction index that is not negative and the spawner returns if it
is called. -/
theorem collision_rule (fuel : Nat) (board : Int × Int) (draws : Nat → Nat) (keys : Keys)
    (g : Game) (hrun : g.state = GameState.running)
    (htick : Int.tmod g.count moveEvery = 0) (hp : keys.p = false) :
    (∀ g1, frame fuel board draws keys g = some g1 →
      ∃ headPos, g1.snake.getHeadPos = some headPos ∧
        (g1.state = GameState.gameOver ↔
          headPos ∈ g.occupied ∨ ¬ (0 ≤ headPos.1 ∧ headPos.1 ≤ board.1 - 1) ∨
            ¬ (0 ≤ headPos.2 ∧ headPos.2 ≤ board.2 - 1)) ∧
        (g1.state ≠ GameState.gameOver → g1.state = GameState.running)) ∧
    (∀ a0 P0 rest, IsChain g.snake ((a0, P0) :: rest) → g.snake.eaten = false →
      0 ≤ g.snake.directionIndex →
      (P0 = g.apple → ∃ r, spawnApple fuel board.1 board.2 g.occupied draws g.rng = some r) →
      ∃ s1 g1, applyCachedDirection (readTurnKeys keys g.cachedDirection) g.snake = some s1 ∧
        frame fuel board draws keys g = some g1 ∧
        g1.snake.getHeadPos = some (moveHead s1.direction P0)) := by
  rw [frame_eq_tick fuel board draws keys g hrun htick hp]
  constructor
  · intro g1 h
    obtain ⟨headPos, hhead, hstate, _, _⟩ := tick_eq_some h
    have hstate1 : g1.state = (if collision board g.occupied headPos
        then GameState.gameOver else GameState.running) := by
      rw [hstate]
      simp only [hrun]
    refine ⟨headPos, hhead, ?_, ?_⟩
    · rw [← collision_iff, hstate1]
      cases collision board g.occupied headPos <;> simp
    · rw [hstate1]
      cases collision board g.occupied headPos <;> simp
  · intro a0 P0 rest hchain he hidx hspawn
    obtain ⟨s1, g1, hs1, htk, _, _, _, _, _, _, hhead, _⟩ :=
      tick_of_chain fuel board draws
        { g with cachedDirection := readTurnKeys keys g.cachedDirection } a0 P0 rest
        hchain he hidx hspawn
    exact ⟨s1, g1, hs1, htk, hhead⟩

/-- Witness of C3 on a board of 10 by 10 cells: a head on (5,5) that moves right to
the free cell (6,5) leaves the state running with the head on (6,5), and a head on
(0,5) that moves left to (-1,5) makes the state over. -/
theorem collision_rule_witness :
    (∃ g1, frame 0 (10, 10) zeroDraws noKeys exampleGame = some g1 ∧
      g1.state = GameState.running ∧ g1.snake.getHeadPos = some (6, 5)) ∧
    (∃ g1, frame 0 (10, 10) zeroDraws noKeys edgeGame = some g1 ∧
      g1.state = GameState.gameOver ∧ g1.snake.getHeadPos = some (-1, 5)) := by
  constructor
  · obtain ⟨hA, hB⟩ :=
      collision_rule 0 (10, 10) zeroDraws noKeys exampleGame rfl (by decide) rfl
    obtain ⟨s1, g1, hs1, hf, hhead⟩ :=
      hB 0 (5, 5) [(1, (4, 5)), (2, (3, 5))] (by decide) rfl (by decide)
        (fun h => absurd h (by decide))
    have hs : s1 = exampleSnake := by
      have : applyCachedDirection (readTurnKeys noKeys exampleGame.cachedDirection)
          exampleGame.snake = some exampleSnake := rfl
      rw [this] at hs1
      exact (Option.some.inj hs1).symm
    subst hs
    obtain ⟨headPos, hhead1, hiff, hrunning⟩ := hA g1 hf
    have hhp : headPos = (6, 5) := by
      rw [hhead] at hhead1
      exact (Option.some.inj hhead1).symm
    subst hhp
    refine ⟨g1, hf, hrunning ?_, hhead⟩
    intro hover
    exact absurd (hiff.mp hover) (by decide)
  · obtain ⟨hA, hB⟩ :=
      collision_rule 0 (10, 10) zeroDraws noKeys edgeGame rfl (by decide) rfl
    obtain ⟨s1, g1, hs1, hf, hhead⟩ :=
      hB 0 (0, 5) [(1, (1, 5))] (by decide) rfl (by decide) (fun h => absurd h (by decide))
    have hs : s1 = edgeGame.snake := by
      have : applyCachedDirection (readTurnKeys noKeys edgeGame.cachedDirection)
          edgeGame.snake = some edgeGame.snake := rfl
      rw [this] at hs1
      exact (Option.some.inj hs1).symm
    subst hs
    obtain ⟨headPos, hhead1, hiff, _⟩ := hA g1 hf
    have hhp : headPos = (-1, 5) := by
      rw [hhead] at hhead1
      exact (Option.some.inj hhead1).symm
    subst hhp
    exact ⟨g1, hf, hiff.mpr (by decide), hhead⟩

set_option maxRecDepth 100000 in
/-- C4 (self-collision, at the failing input): with the pickups placed at (21,10),
(22,10) and (21,11), each on a free cell, `main` reaches after 100 frames a running
state on a tick frame with the chain on (21,11), (22,11), (22,10), (21,10) and the
head on the pickup; the tick with a right turn grows the chain and moves the head
up to (21,10), the cell the new tail holds after the advance, and the state is
still running. -/
theorem self_collision_missed_on_growth :
    ∃ g0 g1, runMain 0 loopDraws loopInputs = some g0 ∧ Reachable loopDraws g0 ∧
      g0.state = GameState.running ∧ Int.tmod g0.count moveEvery = 0 ∧
      g0.snake.cells = [(21, 11), (22, 11), (22, 10), (21, 10)] ∧ g0.apple = (21, 11) ∧
      frame 0 numCells loopDraws turnRightKey g0 = some g1 ∧
      g1.snake.cells = [(21, 10), (21, 11), (22, 11), (22, 10), (21, 10)] ∧
      g1.snake.getHeadPos = some (21, 10) ∧ g1.snake.getTailPos = some (21, 10) ∧
      g1.state = GameState.running := by
  obtain ⟨g0, hrun, h0, h1, h2, h3, hnext⟩ := exists_of_returnsWith
    (runMain 0 loopDraws loopInputs)
    (fun g0 => g0.state = GameState.running ∧ Int.tmod g0.count moveEvery = 0 ∧
      g0.snake.cells = [(21, 11), (22, 11), (22, 10), (21, 10)] ∧ g0.apple = (21, 11) ∧
      returnsWith (frame 0 numCells loopDraws turnRightKey g0) (fun g1 => decide
        (g1.snake.cells = [(21, 10), (21, 11), (22, 11), (22, 10), (21, 10)] ∧
          g1.snake.getHeadPos = some (21, 10) ∧ g1.snake.getTailPos = some (21, 10) ∧
          g1.state = GameState.running)) = true)
    (by decide)
  obtain ⟨g1, hf, h4, h5, h6, h7⟩ := exists_of_returnsWith _ _ hnext
  exact ⟨g0, g1, hrun, reachable_of_runMain 0 loopDraws loopInputs g0 hrun,
    h0, h1, h2, h3, hf, h4, h5, h6, h7⟩

/-- The tick on `exampleGame`, a state built so that the occupancy set is exactly the
set of the chain's cells, which are pairwise distinct (by `tail_free_of_reachable`
no state of a run of `main` is such): the tick does not collide and does not grow,
and afterwards the chain is on (6,5), (5,5), (4,5) while the occupancy set is
(6,5), (5,5), (3,5): the cell (3,5) the tail left is still in the set and the cell
(4,5) the tail now holds is not. -/
theorem occupancy_stale_from_consistent_state :
    exampleGame.state = GameState.running ∧
    exampleGame.occupied = exampleGame.snake.cells.toFinset ∧
    exampleGame.snake.cells.Nodup ∧
    ∃ g1, frame 0 numCells zeroDraws noKeys exampleGame = some g1 ∧
      g1.state = GameState.running ∧
      g1.snake.cells = [(6, 5), (5, 5), (4, 5)] ∧
      g1.occupied = {(6, 5), (5, 5), (3, 5)} ∧
      g1.occupied ≠ g1.snake.cells.toFinset ∧
      (3, 5) ∈ g1.occupied ∧ (4, 5) ∉ g1.occupied ∧
      g1.snake.getTailPos = some (4, 5) := by
  refine ⟨rfl, by decide, by decide, ?_⟩
  exact exists_of_returnsWith (frame 0 numCells zeroDraws noKeys exampleGame)
    (fun g1 => g1.state = GameState.running ∧
      g1.snake.cells = [(6, 5), (5, 5), (4, 5)] ∧
      g1.occupied = {(6, 5), (5, 5), (3, 5)} ∧
      g1.occupied ≠ g1.snake.cells.toFinset ∧
      (3, 5) ∈ g1.occupied ∧ (4, 5) ∉ g1.occupied ∧
      g1.snake.getTailPos = some (4, 5))
    (by decide)

/-- C6 (occupancy seeding, what the code does): whatever the draws, the state
before the first frame has the chain on the cells (20,10) and (19,10) and the
occupancy set made of (900,450) and (899,450), half the window's size in pixels,
so that no cell of the chain is in the set. -/
theorem seeding_uses_pixel_size (fuel : Nat) (draws : Nat → Nat) (g : Game)
    (h : initGame fuel draws = some g) :
    g.state = GameState.starting ∧
    g.snake.cells = [(numCells.1 / 2, numCells.2 / 2), (numCells.1 / 2 - 1, numCells.2 / 2)] ∧
    g.snake.cells = [(20, 10), (19, 10)] ∧
    g.occupied = {(900, 450), (899, 450)} ∧
    g.occupied ≠ g.snake.cells.toFinset ∧
    (∀ c ∈ g.snake.cells, c ∉ g.occupied) := by
  unfold initGame at h
  simp only at h
  split at h
  · cases h
  · simp only [Option.some.injEq] at h
    subst h
    refine ⟨rfl, ?_, ?_, ?_, ?_, ?_⟩ <;> dsimp only <;> decide

/-- Witness of C6 with every draw 0. -/
theorem seeding_uses_pixel_size_witness :
    ∃ g, initGame 0 zeroDraws = some g ∧ g.snake.cells = [(20, 10), (19, 10)] ∧
      g.occupied = {(900, 450), (899, 450)} := by
  obtain ⟨g, hg, _⟩ := exists_of_returnsWith (initGame 0 zeroDraws) (fun _ => True) (by decide)
  obtain ⟨_, _, hcells, hocc, _⟩ := seeding_uses_pixel_size 0 zeroDraws g hg
  exact ⟨g, hg, hcells, hocc⟩

/-- C7 (spawner exclusion, at the failing input): on a board 16777218 cells wide and
1 high with (0,0) occupied, the first candidate of `wideDraws` is the occupied (0,0)
and the second is the free (16777217,0), but `spawnApple` returns (16777216,0): the
re-drawn column lost its last binary digit in the cast to `float` of line 234.  The
returned cell is not the first free candidate, nor any candidate that only occupied
ones precede.  The first draw, line 232, has no such cast: with nothing occupied
and 16777217 drawn first, `spawnApple` returns (16777217,0). -/
theorem spawnApple_redraw_rounded :
    spawnApple 1 16777218 1 {(0, 0)} wideDraws 0 = some ((16777216, 0), 4) ∧
    candidate 16777218 1 wideDraws 0 0 = (0, 0) ∧
    candidate 16777218 1 wideDraws 0 1 = (16777217, 0) ∧
    (¬ ∃ k, (16777216, 0) = candidate 16777218 1 wideDraws 0 k ∧
      ∀ j, j < k → candidate 16777218 1 wideDraws 0 j ∈ ({(0, 0)} : Finset Pos)) ∧
    spawnApple 1 16777218 1 ∅ (fun n => if n = 0 then 16777217 else 0) 0
      = some ((16777217, 0), 2) := by
  refine ⟨by decide, by decide, by decide, ?_, by decide⟩
  rintro ⟨k, hk, hocc⟩
  have hk1 : k ≤ 1 := by
    by_contra hc
    exact absurd (hocc 1 (by omega)) (by decide)
  have hk2 : k = 0 ∨ k = 1 := by omega
  rcases hk2 with rfl | rfl
  · exact absurd hk (by decide)
  · exact absurd hk (by decide)

/-- Spawner exclusion: for every board with width and height above 0, every
occupied set and every stream of draws, a cell `spawnApple` returns is not in
`occupied`; and when width and height are at most 2^24, where the cast of line 234
is exact (the board of `main` is 40 by 20), `spawnApple` returns within `fuel`
re-draws exactly when one of the first `fuel + 1` candidates of the stream (the
successive pairs of draws reduced modulo width and height) is not in `occupied`,
and the cell it returns is the first such candidate. -/
theorem spawnApple_exclusion (fuel : Nat) (width height : Int) (occupied : Finset Pos)
    (draws : Nat → Nat) (rng : Nat) (p : Pos) (rng1 : Nat)
    (hw : 0 < width) (hh : 0 < height) :
    (spawnApple fuel width height occupied draws rng = some (p, rng1) → p ∉ occupied) ∧
    (width ≤ 2 ^ 24 → height ≤ 2 ^ 24 →
      (spawnApple fuel width height occupied draws rng = some (p, rng1) ↔
        ∃ k, k ≤ fuel ∧ p = candidate width height draws rng k ∧ p ∉ occupied ∧
          (∀ j, j < k → candidate width height draws rng j ∈ occupied) ∧
          rng1 = rng + 2 * (k + 1))) := by
  have hiff := spawnApple_iff fuel width height occupied draws rng p rng1
    (by omega) (by omega)
  constructor
  · intro h
    obtain ⟨_, _, _, hfree, _⟩ := hiff.mp h
    exact hfree
  · intro hw2 hh2
    rw [hiff]
    simp only [proposed_eq_candidate width height draws rng _ hw hh hw2 hh2]

/-- An instance of `spawnApple_exclusion` on the board of 40 by 20 cells with (20,10)
occupied: the first
candidate of `redrawDraws` is (20,10) and the second, (21,10), is returned. -/
theorem spawnApple_exclusion_witness :
    (0 : Int) < 40 ∧ (0 : Int) < 20 ∧
    spawnApple 1 40 20 {(20, 10)} redrawDraws 0 = some ((21, 10), 4) ∧
    (21, 10) ∉ ({(20, 10)} : Finset Pos) ∧
    ∃ k, k ≤ 1 ∧ (21, 10) = candidate 40 20 redrawDraws 0 k ∧
      (∀ j, j < k → candidate 40 20 redrawDraws 0 j ∈ ({(20, 10)} : Finset Pos)) := by
  have hret : spawnApple 1 40 20 {(20, 10)} redrawDraws 0 = some ((21, 10), 4) := by decide
  have h := spawnApple_exclusion 1 40 20 {(20, 10)} redrawDraws 0 (21, 10) 4
    (by decide) (by decide)
  obtain ⟨k, hk, hpk, _, hocc, _⟩ := (h.2 (by decide) (by decide)).mp hret
  exact ⟨by decide, by decide, hret, h.1 hret, k, hk, hpk, hocc⟩

set_option maxRecDepth 100000 in
/-- C8 (pickup placement, at the failing inputs): with `headDraws` the first pickup
is placed on (20,10), the cell of the head; and with `tailDraws`, in the tick of
frame 41 the head is on the pickup while the chain is on (21,10), (20,10), and the
replacement is placed on (20,10), the cell of the tail, where it lies under the
new tail after the tick. -/
theorem pickup_placed_on_chain :
    (∃ g, initGame 0 headDraws = some g ∧ g.snake.cells = [(20, 10), (19, 10)] ∧
      g.apple = (20, 10) ∧ g.snake.getHeadPos = some g.apple) ∧
    (∃ g0 g1, runMain 0 tailDraws ([enterKey] ++ idleFrames 39) = some g0 ∧
      g0.state = GameState.running ∧ Int.tmod g0.count moveEvery = 0 ∧
      g0.snake.cells = [(21, 10), (20, 10)] ∧ g0.apple = (21, 10) ∧
      frame 0 numCells tailDraws noKeys g0 = some g1 ∧
      g1.apple = (20, 10) ∧ g0.snake.getTailPos = some g1.apple ∧
      g1.snake.cells = [(22, 10), (21, 10), (20, 10)]) := by
  constructor
  · exact exists_of_returnsWith (initGame 0 headDraws)
      (fun g => g.snake.cells = [(20, 10), (19, 10)] ∧
        g.apple = (20, 10) ∧ g.snake.getHeadPos = some g.apple) (by decide)
  · obtain ⟨g0, hrun, h0, h1, h2, h3, hnext⟩ := exists_of_returnsWith
      (runMain 0 tailDraws ([enterKey] ++ idleFrames 39))
      (fun g0 => g0.state = GameState.running ∧ Int.tmod g0.count moveEvery = 0 ∧
        g0.snake.cells = [(21, 10), (20, 10)] ∧ g0.apple = (21, 10) ∧
        returnsWith (frame 0 numCells tailDraws noKeys g0) (fun g1 => decide
          (g1.apple = (20, 10) ∧ g0.snake.getTailPos = some g1.apple ∧
            g1.snake.cells = [(22, 10), (21, 10), (20, 10)])) = true)
      (by decide)
    obtain ⟨g1, hf, h4, h5, h6⟩ := exists_of_returnsWith _ _ hnext
    exact ⟨g0, g1, hrun, h0, h1, h2, h3, hf, h4, h5, h6⟩

set_option maxRecDepth 100000 in
/-- C9 (game-over, at the failing input): after `wallInputs` the state is running on
a tick frame with the head on (20,0) heading up; the frame in which P is pressed
runs the tick, the head leaves the board to (20,-1), so the collision test fires,
and the state at the end of that frame is paused; the next frame with P pressed
makes it running again. -/
theorem game_over_lost_to_pause :
    ∃ g0 g1 g2, runMain 0 zeroDraws wallInputs = some g0 ∧ Reachable zeroDraws g0 ∧
      g0.state = GameState.running ∧ Int.tmod g0.count moveEvery = 0 ∧
      g0.snake.cells = [(20, 0), (20, 1)] ∧
      frame 0 numCells zeroDraws pauseKey g0 = some g1 ∧
      g1.snake.cells = [(20, -1), (20, 0)] ∧ g1.count = 1 ∧
      collision numCells g0.occupied (20, -1) = true ∧
      g1.state = GameState.paused ∧
      frame 0 numCells zeroDraws pauseKey g1 = some g2 ∧
      g2.state = GameState.running ∧ g2.snake.cells = [(20, -1), (20, 0)] := by
  obtain ⟨g0, hrun, h0, h1, h2, hnext⟩ := exists_of_returnsWith
    (runMain 0 zeroDraws wallInputs)
    (fun g0 => g0.state = GameState.running ∧ Int.tmod g0.count moveEvery = 0 ∧
      g0.snake.cells = [(20, 0), (20, 1)] ∧
      returnsWith (frame 0 numCells zeroDraws pauseKey g0) (fun g1 => decide
        (g1.snake.cells = [(20, -1), (20, 0)] ∧ g1.count = 1 ∧
          collision numCells g0.occupied (20, -1) = true ∧
          g1.state = GameState.paused ∧
          returnsWith (frame 0 numCells zeroDraws pauseKey g1) (fun g2 => decide
            (g2.state = GameState.running ∧ g2.snake.cells = [(20, -1), (20, 0)]))
            = true)) = true)
    (by decide)
  obtain ⟨g1, hf1, h3, h4, h5, h6, hnext2⟩ := exists_of_returnsWith _ _ hnext
  obtain ⟨g2, hf2, h7, h8⟩ := exists_of_returnsWith _ _ hnext2
  exact ⟨g0, g1, g2, hrun, reachable_of_runMain 0 zeroDraws wallInputs g0 hrun,
    h0, h1, h2, hf1, h3, h4, h5, h6, hf2, h7, h8⟩

/-- C10 (over is absorbing): in a state whose game state is over, a frame with any
keys pressed returns the state it was given, so the chain's nodes and cells, its
direction and direction index, the occupancy set, the pickup, the frame counter,
the buffered turn and the game state are what they were; and so does any number
of frames. -/
theorem over_is_absorbing (fuel : Nat) (board : Int × Int) (draws : Nat → Nat) (keys : Keys)
    (g : Game) (hover : g.state = GameState.gameOver) :
    frame fuel board draws keys g = some g ∧
    (∀ g1, frame fuel board draws keys g = some g1 →
      g1.snake.cells = g.snake.cells ∧ g1.snake.direction = g.snake.direction ∧
      g1.snake.directionIndex = g.snake.directionIndex ∧ g1.occupied = g.occupied ∧
      g1.apple = g.apple ∧ g1.count = g.count ∧ g1.cachedDirection = g.cachedDirection ∧
      g1.state = GameState.gameOver) ∧
    (∀ inputs, runFrames fuel board draws inputs g = some g) := by
  have hframe : ∀ k, frame fuel board draws k g = some g := by
    intro k
    unfold frame
    rw [hover]
  refine ⟨hframe keys, ?_, ?_⟩
  · intro g1 h1
    rw [hframe keys] at h1
    cases h1
    exact ⟨rfl, rfl, rfl, rfl, rfl, rfl, rfl, hover⟩
  · intro inputs
    induction inputs with
    | nil => rfl
    | cons k rest ih =>
      simp only [runFrames, hframe k]
      exact ih

/-- Witness of C10: `overGame` with every key pressed. -/
theorem over_is_absorbing_witness :
    overGame.state = GameState.gameOver ∧
    frame 0 numCells zeroDraws
      { enter := true, right := true, d := true, left := true, a := true, p := true } overGame
      = some overGame :=
  ⟨rfl, (over_is_absorbing 0 numCells zeroDraws _ overGame rfl).1⟩

/-- C14 (interior tile resolution): for a node whose `next` and `prev` are on two
different cells among its four orthogonal neighbours (east is column + 1, west is
column - 1, north is row - 1, south is row + 1), `getBodyRotation` returns one
sprite: the straight body for east and west or north and south, the up-left corner
for east and south, the up-right corner for west and south, the down-left corner
for east and north, and the down-right corner exactly for west and north. -/
theorem interior_tile_resolution (s : Snake) (runner a b : Nat) (nd nn pn : Node)
    (d1 d2 : Directions)
    (hr : s.heap[runner]? = some nd) (hnext : nd.next = some a) (hprev : nd.prev = some b)
    (hn : s.heap[a]? = some nn) (hp : s.heap[b]? = some pn)
    (hd1 : nn.position = moveHead d1 nd.position)
    (hd2 : pn.position = moveHead d2 nd.position) (hne : d1 ≠ d2) :
    ∃ sprite, s.getBodyRotation runner = some sprite ∧
      (AreThe d1 d2 Directions.right Directions.left ∨
        AreThe d1 d2 Directions.up Directions.down → sprite = Sprite.snakeBody) ∧
      (AreThe d1 d2 Directions.right Directions.down → sprite = Sprite.snakeCornerUpLeft) ∧
      (AreThe d1 d2 Directions.left Directions.down → sprite = Sprite.snakeCornerUpRight) ∧
      (AreThe d1 d2 Directions.right Directions.up → sprite = Sprite.snakeCornerDownLeft) ∧
      (sprite = Sprite.snakeCornerDownRight ↔ AreThe d1 d2 Directions.left Directions.up) := by
  obtain ⟨h1, h2, h3, h4, h5, _⟩ := selectSprite_of_neighbours nd.position d1 d2 hne
  refine ⟨selectSprite (neighbors nd.position (moveHead d1 nd.position)
    (moveHead d2 nd.position)), ?_, h1, h2, h3, h4, h5⟩
  unfold Snake.getBodyRotation
  simp only [hr, hnext, hprev, hn, hp, hd1, hd2]

/-- Witness of C14 on the middle node of `cornerSnake`, whose `next` is to the west
and whose `prev` is to the north: the down-right corner. -/
theorem interior_tile_resolution_witness :
    cornerSnake.getBodyRotation 1 = some Sprite.snakeCornerDownRight := by
  obtain ⟨sprite, hs, _, _, _, _, h5⟩ :=
    interior_tile_resolution cornerSnake 1 2 0 (Node.mk (some 2) (some 0) (5, 5))
      (Node.mk none (some 1) (4, 5)) (Node.mk (some 1) none (5, 4))
      Directions.left Directions.up rfl rfl rfl rfl rfl rfl rfl (by decide)
  rw [hs, h5.mpr (Or.inl ⟨rfl, rfl⟩)]

/-- C15 (tail orientation): for a tail whose `prev` is on a cell orthogonally
adjacent to the tail's, exactly one of the four tests holds (one column to the
right, one column to the left, one row above, one row below), and `tailRotation`
returns 0 exactly when the cell is one column to the right, 180 exactly when one
column to the left, 270 exactly when one row above, and 90 exactly when one row
below. -/
theorem tail_orientation (s : Snake) (t pn : Node) (a : Nat)
    (ht : s.heap[s.tail]? = some t) (hprev : t.prev = some a) (hp : s.heap[a]? = some pn)
    (hadj : Adjacent pn.position t.position) :
    ∃ angle, s.tailRotation = some angle ∧
      ((pn.position.1 = t.position.1 + 1 ∧ ¬ pn.position.1 = t.position.1 - 1 ∧
          ¬ pn.position.2 = t.position.2 - 1 ∧ ¬ pn.position.2 = t.position.2 + 1) ∨
        (¬ pn.position.1 = t.position.1 + 1 ∧ pn.position.1 = t.position.1 - 1 ∧
          ¬ pn.position.2 = t.position.2 - 1 ∧ ¬ pn.position.2 = t.position.2 + 1) ∨
        (¬ pn.position.1 = t.position.1 + 1 ∧ ¬ pn.position.1 = t.position.1 - 1 ∧
          pn.position.2 = t.position.2 - 1 ∧ ¬ pn.position.2 = t.position.2 + 1) ∨
        (¬ pn.position.1 = t.position.1 + 1 ∧ ¬ pn.position.1 = t.position.1 - 1 ∧
          ¬ pn.position.2 = t.position.2 - 1 ∧ pn.position.2 = t.position.2 + 1)) ∧
      (angle = 0 ↔ pn.position = (t.position.1 + 1, t.position.2)) ∧
      (angle = 180 ↔ pn.position = (t.position.1 - 1, t.position.2)) ∧
      (angle = 270 ↔ pn.position = (t.position.1, t.position.2 - 1)) ∧
      (angle = 90 ↔ pn.position = (t.position.1, t.position.2 + 1)) := by
  obtain ⟨h0, h180, h270, h90⟩ := tailAngle_of_adjacent t.position pn.position hadj
  refine ⟨tailAngle t.position pn.position, ?_, ?_, h0, h180, h270, h90⟩
  · unfold Snake.tailRotation
    simp only [ht, hprev, hp]
  · simp only [Adjacent] at hadj
    omega

/-- Witness of C15 on `cornerSnake`: the tail is on (4,5) and its `prev` on (5,5),
one column to the right, and the angle is 0. -/
theorem tail_orientation_witness : cornerSnake.tailRotation = some 0 := by
  obtain ⟨angle, hs, _, h0, _⟩ :=
    tail_orientation cornerSnake (Node.mk none (some 1) (4, 5))
      (Node.mk (some 2) (some 0) (5, 5)) 1 rfl rfl rfl (by decide)
  rw [hs, h0.mpr rfl]

/-- C11 (turn semantics): for a direction index `i` that is not negative, so for
every `i` in 0..3, `nextDirection`
returns with the index (i + 1) mod 4 and `prevDirection` with the index
(i + 3) mod 4, each with `direction` the entry of `compass` (right, down, left,
up) at the new index and with the nodes, hence the cells, unchanged; and in every
reachable state the index is in 0..3 and `direction` is the entry of `compass` at
the index. -/
theorem turn_semantics (s : Snake) (h0 : 0 ≤ s.directionIndex) :
    (∃ s1, s.nextDirection = some s1 ∧
      s1.directionIndex = (s.directionIndex + 1) % 4 ∧
      compass[s1.directionIndex.toNat]? = some s1.direction ∧
      s1.heap = s.heap ∧ s1.head = s.head ∧ s1.tail = s.tail ∧ s1.cells = s.cells) ∧
    (∃ s1, s.prevDirection = some s1 ∧
      s1.directionIndex = (s.directionIndex + 3) % 4 ∧
      compass[s1.directionIndex.toNat]? = some s1.direction ∧
      s1.heap = s.heap ∧ s1.head = s.head ∧ s1.tail = s.tail ∧ s1.cells = s.cells) ∧
    compass = [Directions.right, Directions.down, Directions.left, Directions.up] ∧
    (∀ draws g, Reachable draws g →
      0 ≤ g.snake.directionIndex ∧ g.snake.directionIndex ≤ 3 ∧
      compass[g.snake.directionIndex.toNat]? = some g.snake.direction) := by
  refine ⟨?_, ?_, rfl, ?_⟩
  · obtain ⟨d, hd, hnext⟩ := nextDirection_eq s h0
    refine ⟨_, hnext, rfl, ?_, rfl, rfl, rfl, rfl⟩
    rw [← compassAt_eq _ (by show 0 ≤ (s.directionIndex + 1) % 4; omega)]
    exact hd
  · obtain ⟨d, hd, hprev⟩ := prevDirection_eq s h0
    refine ⟨_, hprev, rfl, ?_, rfl, rfl, rfl, rfl⟩
    rw [← compassAt_eq _ (by show 0 ≤ (s.directionIndex + 3) % 4; omega)]
    exact hd
  · intro draws g hreach
    obtain ⟨segs, hinv⟩ := inv_of_reachable hreach
    exact ⟨hinv.idx0, hinv.idx3, by rw [← compassAt_eq _ hinv.idx0]; exact hinv.dir⟩

/-- Witness of C11 at index 3, heading up: a forward turn gives index 0 and
right, a backward turn index 2 and left. -/
theorem turn_semantics_witness :
    (∃ s1, upSnake.nextDirection = some s1 ∧ s1.directionIndex = 0 ∧
      s1.direction = Directions.right ∧ s1.cells = [(5, 5), (4, 5), (3, 5)]) ∧
    (∃ s1, upSnake.prevDirection = some s1 ∧ s1.directionIndex = 2 ∧
      s1.direction = Directions.left ∧ s1.cells = [(5, 5), (4, 5), (3, 5)]) := by
  obtain ⟨⟨s1, hn, hi1, hd1, _, _, _, hc1⟩, ⟨s2, hp, hi2, hd2, _, _, _, hc2⟩, _⟩ :=
    turn_semantics upSnake (by decide)
  have e1 : s1.directionIndex = 0 := hi1
  have e2 : s2.directionIndex = 2 := hi2
  rw [e1] at hd1
  rw [e2] at hd2
  exact ⟨⟨s1, hn, e1, (Option.some.inj hd1).symm, hc1⟩,
    ⟨s2, hp, e2, (Option.some.inj hd2).symm, hc2⟩⟩

/-- C13 (chain length invariant): in every reachable state, with `added` the number
of `addNode` calls so far, the chain is a well-formed doubly linked sequence of
`added + 2` nodes: following `next` from the head visits exactly these nodes and
ends at the tail, following `prev` from the tail visits them in the opposite
order, and `prev` of `next` is the node itself; and for every chain `addNode`
returns with one segment more, while `update` (with or without growth pending),
`nextDirection` and `prevDirection` leave the number of segments unchanged. -/
theorem chain_length_invariant (draws : Nat → Nat) (running added : Nat) (g : Game)
    (h : ReachableCounted draws running added g) :
    (∃ segs, IsChain g.snake segs ∧ segs.length = added + 2 ∧
      walkNext g.snake.heap g.snake.heap.length (some g.snake.head) = segs.map Prod.fst ∧
      (segs.map Prod.fst).getLast? = some g.snake.tail ∧
      walkPrev g.snake.heap g.snake.heap.length (some g.snake.tail)
        = (segs.map Prod.fst).reverse ∧
      (segs.map Prod.fst).head? = some g.snake.head ∧
      (segs.map Prod.fst).Nodup ∧
      (∀ a ∈ segs.map Prod.fst, ∀ nd b, g.snake.heap[a]? = some nd → nd.next = some b →
        ∃ nb, g.snake.heap[b]? = some nb ∧ nb.prev = some a) ∧
      g.snake.cells.length = added + 2) ∧
    2 ≤ g.snake.cells.length ∧
    (∀ (s : Snake) (segs : List (Nat × Pos)), IsChain s segs → segs ≠ [] →
      (∃ s1, s.addNode = some s1 ∧ s1.cells.length = s.cells.length + 1) ∧
      (s.eaten = false → ∃ s1, s.update = some s1 ∧ s1.cells.length = s.cells.length) ∧
      (∃ s1 s2, s.setEaten.addNode = some s1 ∧ s1.update = some s2 ∧
        s1.cells.length = s.cells.length + 1 ∧ s2.cells.length = s1.cells.length)) ∧
    (∀ s s1 : Snake, s.nextDirection = some s1 ∨ s.prevDirection = some s1 →
      s1.cells = s.cells) := by
  obtain ⟨segs, hinv, hlen, _⟩ := inv_of_reachableCounted h
  have hchain := hinv.chain
  have hne : segs ≠ [] := by
    intro he
    have := hinv.long
    rw [he] at this
    simp at this
  have hle := Linked.length_le segs none none hchain.nodup hchain.linked
  have hcells : g.snake.cells.length = added + 2 := by
    rw [hchain.cells_eq, List.length_map, hlen]
  refine ⟨⟨segs, hchain, hlen, ?_, ?_, ?_, ?_, hchain.nodup, ?_, hcells⟩, by omega,
    fun s segs0 hc hn => length_ops_of_chain s segs0 hc hn, fun s s1 hs => turn_cells hs⟩
  · rw [← hchain.head]
    exact walkNext_of_linked segs none _ hchain.linked hle
  · rw [← lastAddr_eq_getLast? segs none hne]
    exact hchain.tail
  · rw [← hchain.tail]
    exact walkPrev_of_linked segs none _ hchain.linked hle
  · have := hchain.head
    cases segs with
    | nil => exact absurd rfl hne
    | cons x xs => simpa [firstAddr] using this
  · exact prev_of_next_of_linked segs none hchain.linked

set_option maxRecDepth 100000 in
/-- Witness of C13: after the 101 frames of `loopInputs` and a last frame with the
right arrow, `addNode` was called 3 times and the chain has 5 segments. -/
theorem chain_length_invariant_witness :
    ∃ g, ReachableCounted loopDraws 100 3 g ∧ g.snake.cells.length = 5 ∧
      walkNext g.snake.heap g.snake.heap.length (some g.snake.head) = [0, 1, 2, 3, 4] := by
  have hd : (runMainCounted 0 loopDraws (loopInputs ++ [turnRightKey])).map
      (fun x => (x.1, x.2.1,
        walkNext x.2.2.snake.heap x.2.2.snake.heap.length (some x.2.2.snake.head)))
      = some (100, 3, [0, 1, 2, 3, 4]) := by decide
  obtain ⟨⟨r, n, g⟩, hx, hv⟩ := Option.map_eq_some'.mp hd
  simp only [Prod.mk.injEq] at hv
  obtain ⟨rfl, rfl, hwalk⟩ := hv
  have hreach := reachableCounted_of_runMainCounted 0 loopDraws _ _ hx
  obtain ⟨⟨_, _, _, _, _, _, _, _, _, hcells⟩, _⟩ :=
    chain_length_invariant loopDraws _ _ g hreach
  exact ⟨g, hreach, hcells, hwalk⟩

/-- C16 (well-formed path invariant): in every reachable state the cells of the
chain, head to tail, are such that every two consecutive ones differ by exactly 1
in exactly one coordinate and the cells before and after every interior one are
different; so the vector `neighbors` of every interior segment has exactly two
entries set, and the cell before the tail is orthogonally adjacent to the tail's. -/
theorem path_invariant (draws : Nat → Nat) (g : Game) (h : Reachable draws g) :
    PathOK g.snake.cells ∧
    (∀ i a b, g.snake.cells[i]? = some a → g.snake.cells[i + 1]? = some b → Adjacent a b) ∧
    (∀ i p n, g.snake.cells[i]? = some p → g.snake.cells[i + 2]? = some n → p ≠ n) ∧
    (∀ i p c n, g.snake.cells[i]? = some p → g.snake.cells[i + 1]? = some c →
      g.snake.cells[i + 2]? = some n → bitsSet (neighbors c n p) = 2) ∧
    (∀ pre p t, g.snake.cells = pre ++ [p, t] → Adjacent p t) := by
  obtain ⟨segs, hinv⟩ := inv_of_reachable h
  have hpath : PathOK g.snake.cells := by
    rw [hinv.chain.cells_eq]
    exact hinv.path
  have hadj := PathOK_adjacent _ hpath
  have hapart := PathOK_apart _ hpath
  refine ⟨hpath, hadj, hapart, ?_, ?_⟩
  · intro i p c n hp hc hn
    have h1 : Adjacent p c := hadj i p c hp hc
    have h2 : Adjacent c n := hadj (i + 1) c n hc hn
    have h3 : p ≠ n := hapart i p n hp hn
    have h2s : Adjacent n c := by
      simp only [Adjacent] at h2 ⊢
      omega
    exact bitsSet_of_adjacent c n p h2s h1 h3
  · intro pre p t hc
    refine hadj pre.length p t ?_ ?_
    · rw [hc, List.getElem?_append_right (Nat.le_refl _)]
      simp
    · rw [hc, List.getElem?_append_right (by omega)]
      simp

set_option maxRecDepth 100000 in
/-- Witness of C16: the state after the 100 frames of `loopInputs`, whose chain
bends three times. -/
theorem path_invariant_witness :
    ∃ g, Reachable loopDraws g ∧
      g.snake.cells = [(21, 11), (22, 11), (22, 10), (21, 10)] ∧ PathOK g.snake.cells := by
  obtain ⟨g, hrun, hcells⟩ := exists_of_returnsWith (runMain 0 loopDraws loopInputs)
    (fun g => g.snake.cells = [(21, 11), (22, 11), (22, 10), (21, 10)]) (by decide)
  have hreach := reachable_of_runMain 0 loopDraws loopInputs g hrun
  exact ⟨g, hreach, hcells, (path_invariant loopDraws g hreach).1⟩

/-- C17 (tick cadence): in every reachable state, with `running` the number of
frames so far that began in the running state, the frame counter is
`running mod 20 + 1`, so it is in 1..20, and the next frame runs the tick exactly
when the state is running and `running + 1` is a multiple of 20; a frame that
runs the tick resets the counter to 1, a running frame that does not adds 1 to it
and leaves the snake, the occupancy set and the pickup alone, and a frame that
begins in another state leaves these and the counter alone. -/
theorem tick_cadence (draws : Nat → Nat) (running added : Nat) (g : Game)
    (h : ReachableCounted draws running added g) :
    g.count = ((running % 20 : Nat) : Int) + 1 ∧ 1 ≤ g.count ∧ g.count ≤ 20 ∧
    (ticks g = true ↔ g.state = GameState.running ∧ (running + 1) % 20 = 0) ∧
    (∀ fuel keys g1, frame fuel numCells draws keys g = some g1 →
      (ticks g = true →
        (∃ g3, tick fuel numCells draws
            { g with cachedDirection := readTurnKeys keys g.cachedDirection } = some g3 ∧
          g1.snake = g3.snake ∧ g1.occupied = g3.occupied ∧ g1.apple = g3.apple) ∧
        g1.count = 1) ∧
      (ticks g = false →
        g1.snake = g.snake ∧ g1.occupied = g.occupied ∧ g1.apple = g.apple) ∧
      (g.state = GameState.running → ticks g = false → g1.count = g.count + 1) ∧
      (g.state ≠ GameState.running →
        ticks g = false ∧ g1.count = g.count ∧ g1.cachedDirection = g.cachedDirection)) := by
  obtain ⟨segs, hinv, _, hcount⟩ := inv_of_reachableCounted h
  have h1 := hinv.count1
  have h20 := hinv.count20
  refine ⟨hcount, h1, h20, ?_, ?_⟩
  · rw [ticks_iff, tmod_moveEvery_eq_zero g.count h1 h20]
    constructor
    · rintro ⟨hr, hc⟩
      exact ⟨hr, by omega⟩
    · rintro ⟨hr, hc⟩
      exact ⟨hr, by omega⟩
  · intro fuel keys g1 hframe
    obtain ⟨_, _, _, hcount1⟩ := hinv.of_frame hframe
    rcases frame_eq_some_cases hframe with
      ⟨hnt, hsnake, hocc, happle, _, hcnt, hcached⟩ |
      ⟨ht, g3, htick, hsnake, hocc, happle, _, _, _, _⟩
    · refine ⟨fun ht => ?_, fun _ => ⟨hsnake, hocc, happle⟩, fun hr _ => ?_, fun hr => ?_⟩
      · rw [hnt] at ht
        cases ht
      · rw [hcnt, if_pos hr]
      · rw [hcnt, hcached, if_neg hr, if_neg hr]
        exact ⟨hnt, rfl, rfl⟩
    · refine ⟨fun _ => ⟨⟨g3, htick, hsnake, hocc, happle⟩, ?_⟩, fun hnt => ?_,
        fun _ hnt => ?_, fun hr => ?_⟩
      · rw [hcount1, if_pos ht]
      · rw [ht] at hnt
        cases hnt
      · rw [ht] at hnt
        cases hnt
      · exact absurd ((ticks_iff g).mp ht).1 hr

set_option maxRecDepth 100000 in
/-- Witness of C17: after Enter and 19 running frames the counter is 20 and the
next frame, the 20th running one, runs the tick. -/
theorem tick_cadence_witness :
    ∃ g, ReachableCounted zeroDraws 19 0 g ∧ g.state = GameState.running ∧ g.count = 20 ∧
      ticks g = true := by
  have hd : (runMainCounted 0 zeroDraws ([enterKey] ++ idleFrames 19)).map
      (fun x => (x.1, x.2.1, x.2.2.state)) = some (19, 0, GameState.running) := by decide
  obtain ⟨⟨r, n, g⟩, hx, hv⟩ := Option.map_eq_some'.mp hd
  simp only [Prod.mk.injEq] at hv
  obtain ⟨rfl, rfl, hst⟩ := hv
  have hreach := reachableCounted_of_runMainCounted 0 zeroDraws _ _ hx
  obtain ⟨hcount, _, _, hticks, _⟩ := tick_cadence zeroDraws _ _ g hreach
  exact ⟨g, hreach, hst, hcount, hticks.mpr ⟨hst, show (19 + 1) % 20 = 0 from rfl⟩⟩
/-- C18 (all-but-tail occupancy): from a running state on the tick frame whose chain
is well formed, whose segments other than the tail are on pairwise distinct cells and
whose occupancy set is exactly the set of those cells, the frame returns (the spawner
returning when the head is on the pickup), and unless the collision test fires on the
new head cell, the segments other than the tail, which is a new one after growth, are
again on pairwise distinct cells and the occupancy set is again exactly the set of
their cells. -/
theorem all_but_tail_occupancy (fuel : Nat) (board : Int × Int) (draws : Nat → Nat)
    (keys : Keys) (g : Game) (a0 : Nat) (P0 : Pos) (rest : List (Nat × Pos))
    (hrun : g.state = GameState.running) (htick : Int.tmod g.count moveEvery = 0)
    (hchain : IsChain g.snake ((a0, P0) :: rest)) (he : g.snake.eaten = false)
    (hidx : 0 ≤ g.snake.directionIndex)
    (hspawn : P0 = g.apple →
      ∃ r, spawnApple fuel board.1 board.2 g.occupied draws g.rng = some r)
    (hdistinct : g.snake.cells.dropLast.Nodup)
    (hocc : g.occupied = g.snake.cells.dropLast.toFinset) :
    ∃ g1 headPos, frame fuel board draws keys g = some g1 ∧
      g1.snake.getHeadPos = some headPos ∧
      g1.snake.cells.length = (if P0 = g.apple then g.snake.cells.length + 1
        else g.snake.cells.length) ∧
      (collision board g.occupied headPos = false →
        g1.snake.cells.dropLast.Nodup ∧
        g1.occupied = g1.snake.cells.dropLast.toFinset) := by
  obtain ⟨g3, headPos, htk, hhp, hlen, hkeep⟩ :=
    occupancy_of_tick fuel board draws
      { g with cachedDirection := readTurnKeys keys g.cachedDirection }
      a0 P0 rest hchain he hidx hspawn hdistinct hocc
  have hfr := frame_of_tick fuel board draws keys g g3 hrun htick htk
  by_cases hp : keys.p = true
  · rw [if_pos hp] at hfr
    exact ⟨_, headPos, hfr, hhp, hlen, hkeep⟩
  · rw [if_neg hp] at hfr
    exact ⟨_, headPos, hfr, hhp, hlen, hkeep⟩

set_option maxRecDepth 100000 in
theorem all_but_tail_occupancy_witness :
    tailFreeGame.state = GameState.running ∧
    tailFreeGame.snake.cells = [(5, 5), (4, 5), (3, 5)] ∧
    tailFreeGame.occupied = {(5, 5), (4, 5)} ∧
    ∃ g1, frame 0 numCells zeroDraws noKeys tailFreeGame = some g1 ∧
      g1.snake.cells = [(6, 5), (5, 5), (4, 5)] ∧
      g1.snake.cells.dropLast.Nodup ∧
      g1.occupied = g1.snake.cells.dropLast.toFinset := by
  refine ⟨rfl, by decide, rfl, ?_⟩
  obtain ⟨g1, headPos, hfr, hhp, _, hkeep⟩ :=
    all_but_tail_occupancy 0 numCells zeroDraws noKeys tailFreeGame 0 (5, 5)
      [(1, (4, 5)), (2, (3, 5))] rfl (by decide) (by decide) rfl (by decide)
      (fun h => absurd h (by decide)) (by decide) (by decide)
  obtain ⟨g2, hfr2, hcells, hhead⟩ :=
    exists_of_returnsWith (frame 0 numCells zeroDraws noKeys tailFreeGame)
      (fun g => g.snake.cells = [(6, 5), (5, 5), (4, 5)] ∧ g.snake.getHeadPos = some (6, 5))
      (by decide)
  have hg : g1 = g2 := Option.some.inj (hfr.symm.trans hfr2)
  subst hg
  have hh : headPos = (6, 5) := Option.some.inj (hhp.symm.trans hhead)
  subst hh
  obtain ⟨hnd, hocc⟩ := hkeep (by decide)
  exact ⟨g1, hfr, hcells, hnd, hocc⟩
/-- C19 (spawned cells on the board, at the failing input): on a board 16777220 cells
wide and 1 high with (0,0) occupied, the first cell proposed from `widerDraws` is
the occupied (0,0) and the re-drawn column 16777219 goes through the cast to `float`
of line 234, which rounds it to 16777220: `spawnApple` returns (16777220,0), a cell
whose column is not below the width.  The first draw, line 232, has no such cast:
with nothing occupied and 16777219 drawn first, `spawnApple` returns
(16777219,0), on the board. -/
theorem spawnApple_redraw_off_board :
    (0 : Int) < 16777220 ∧ (0 : Int) < 1 ∧
    spawnApple 1 16777220 1 {(0, 0)} widerDraws 0 = some ((16777220, 0), 4) ∧
    ¬ ((16777220 : Int) < 16777220) ∧
    spawnApple 1 16777220 1 ∅ (fun n => if n = 0 then 16777219 else 0) 0
      = some ((16777219, 0), 2) := by
  refine ⟨by decide, by decide, by decide, by decide, by decide⟩

/-- Spawned cells on the board: for every width and height above 0 and at most 2^24,
where the cast of line 234 is exact (the board of `main` is 40 by 20), every
occupied set and every stream of draws on which `spawnApple` returns, the returned
cell (c, r) satisfies 0 ≤ c < width and 0 ≤ r < height; and for every width and
height above 0, a cell returned without a re-draw satisfies the same. -/
theorem spawnApple_on_board (fuel : Nat) (width height : Int) (occupied : Finset Pos)
    (draws : Nat → Nat) (rng : Nat) (p : Pos) (rng1 : Nat)
    (hw : 0 < width) (hh : 0 < height)
    (hret : spawnApple fuel width height occupied draws rng = some (p, rng1)) :
    (width ≤ 2 ^ 24 → height ≤ 2 ^ 24 →
      0 ≤ p.1 ∧ p.1 < width ∧ 0 ≤ p.2 ∧ p.2 < height) ∧
    (rng1 = rng + 2 → 0 ≤ p.1 ∧ p.1 < width ∧ 0 ≤ p.2 ∧ p.2 < height) := by
  obtain ⟨k, _, hpk, _, _, hrng⟩ :=
    (spawnApple_iff fuel width height occupied draws rng p rng1 (by omega) (by omega)).mp hret
  constructor
  · intro hw2 hh2
    rw [hpk, proposed_eq_candidate width height draws rng k hw hh hw2 hh2]
    have h1 := tmod_draw_bounds (draws (rng + 2 * k)) width hw
    have h2 := tmod_draw_bounds (draws (rng + 2 * k + 1)) height hh
    exact ⟨h1.1, h1.2, h2.1, h2.2⟩
  · intro hno
    have hk : k = 0 := by omega
    subst hk
    rw [hpk]
    have h1 := tmod_draw_bounds (draws (rng + 2 * 0)) width hw
    have h2 := tmod_draw_bounds (draws (rng + 2 * 0 + 1)) height hh
    exact ⟨h1.1, h1.2, h2.1, h2.2⟩

/-- An instance of `spawnApple_on_board` on the board of 40 by 20 cells with (20,10)
occupied: the cell
returned after one re-draw from `redrawDraws`, (21,10), is on the board. -/
theorem spawnApple_on_board_witness :
    (0 : Int) < 40 ∧ (0 : Int) < 20 ∧
    spawnApple 1 40 20 {(20, 10)} redrawDraws 0 = some ((21, 10), 4) ∧
    (0 : Int) ≤ 21 ∧ (21 : Int) < 40 ∧ (0 : Int) ≤ 10 ∧ (10 : Int) < 20 := by
  have hret : spawnApple 1 40 20 {(20, 10)} redrawDraws 0 = some ((21, 10), 4) := by decide
  have h := (spawnApple_on_board 1 40 20 {(20, 10)} redrawDraws 0 (21, 10) 4
    (by decide) (by decide) hret).1 (by decide) (by decide)
  exact ⟨by decide, by decide, hret, h⟩
/-- C12 (turn buffering): take a run of frames from a running or paused state with a
well-formed chain whose frames that begin in the running state complete one tick
window, the last of them being the tick frame (`count` plus their number is
`moveEvery` + 1; the spawner returns if the head is on the pickup).  The run returns
with the buffer empty and `count` 1, the head moved one cell in the direction held
after the tick, and the turn applied by the tick is that of the last running frame
that carried a turn event: one call of `nextDirection` if it carried a forward
event, one call of `prevDirection` if it carried a backward event and no forward
one, whatever the earlier frames carried; and with the buffer empty at the start
and no running frame carrying a turn event, direction and index are unchanged.  In
every reachable state with `count` 1, the start of a window, the buffer is empty. -/
theorem turn_buffering (fuel : Nat) (board : Int × Int) (draws : Nat → Nat)
    (inputs : List Keys) (g : Game) (a0 : Nat) (P0 : Pos) (rest : List (Nat × Pos))
    (hst : g.state = GameState.running ∨ g.state = GameState.paused)
    (h1 : 1 ≤ g.count) (h20 : g.count ≤ moveEvery)
    (hwindow : g.count + (runningInputs fuel board draws inputs g).length = moveEvery + 1)
    (hchain : IsChain g.snake ((a0, P0) :: rest)) (he : g.snake.eaten = false)
    (hidx : 0 ≤ g.snake.directionIndex)
    (hspawn : P0 = g.apple →
      ∃ r, spawnApple fuel board.1 board.2 g.occupied draws g.rng = some r) :
    (∃ g1, runFrames fuel board draws inputs g = some g1 ∧
      g1.cachedDirection = none ∧ g1.count = 1 ∧
      g1.snake.getHeadPos = some (moveHead g1.snake.direction P0) ∧
      (∀ early k late, runningInputs fuel board draws inputs g = early ++ k :: late →
        (∀ j ∈ late, noTurn j) →
        (turnsForward k →
          (∃ s1, g.snake.nextDirection = some s1 ∧ g1.snake.direction = s1.direction ∧
            g1.snake.directionIndex = s1.directionIndex) ∧
          g1.snake.directionIndex = (g.snake.directionIndex + 1) % 4) ∧
        (turnsBackward k → ¬ turnsForward k →
          (∃ s1, g.snake.prevDirection = some s1 ∧ g1.snake.direction = s1.direction ∧
            g1.snake.directionIndex = s1.directionIndex) ∧
          g1.snake.directionIndex = (g.snake.directionIndex + 3) % 4)) ∧
      (g.cachedDirection = none →
        (∀ k ∈ runningInputs fuel board draws inputs g, noTurn k) →
        g1.snake.direction = g.snake.direction ∧
        g1.snake.directionIndex = g.snake.directionIndex)) ∧
    (∀ draws0 g0, Reachable draws0 g0 → g0.count = 1 → g0.cachedDirection = none) := by
  constructor
  · obtain ⟨g1, s1, hrun, hcount, hbuf, happly, hdir, hindex, hhp⟩ :=
      runFrames_tick_window fuel board draws a0 P0 rest inputs g hst h1
        (by unfold moveEvery at h20; exact h20)
        (by unfold moveEvery at hwindow; omega) hchain he hidx hspawn
    obtain ⟨hnone, hnext, hprev⟩ := applyCachedDirection_cases happly
    refine ⟨g1, hrun, hbuf, hcount, by rw [hdir]; exact hhp, ?_, ?_⟩
    · intro early k late hsplit hlate
      rw [hsplit, foldl_readTurnKeys_last early late k _ hlate] at hnext hprev
      constructor
      · intro hfw
        have hs1 := hnext (readTurnKeys_of_forward k _ hfw)
        obtain ⟨d, _, hd⟩ := nextDirection_eq g.snake hidx
        have hs : s1 = _ := Option.some.inj (hs1.symm.trans hd)
        refine ⟨⟨s1, hs1, hdir, hindex⟩, ?_⟩
        rw [hindex, hs]
      · intro hbw hnf
        have hs1 := hprev (readTurnKeys_of_backward k _ hnf hbw)
        obtain ⟨d, _, hd⟩ := prevDirection_eq g.snake hidx
        have hs : s1 = _ := Option.some.inj (hs1.symm.trans hd)
        refine ⟨⟨s1, hs1, hdir, hindex⟩, ?_⟩
        rw [hindex, hs]
    · intro hempty hno
      rw [foldl_readTurnKeys_of_noTurn _ _ hno] at hnone
      have hs := hnone hempty
      rw [hdir, hindex, hs]
      exact ⟨rfl, rfl⟩
  · intro draws0 g0 hreach hc
    obtain ⟨segs, hinv⟩ := inv_of_reachable hreach
    exact hinv.buffer hc

set_option maxRecDepth 100000 in
/-- Witness of C12: from `windowGame`, two frames before the tick frame, a forward
turn, a forward turn and on the tick frame a backward turn: the snake heading right
(index 0) turns once backward, to up (index 3), and its head moves from (5,5) to
(5,4). -/
theorem turn_buffering_witness :
    windowGame.state = GameState.running ∧ windowGame.count = 18 ∧
    windowGame.snake.directionIndex = 0 ∧
    runningInputs 0 numCells zeroDraws [turnRightKey, turnRightKey, turnLeftKey] windowGame
      = [turnRightKey, turnRightKey, turnLeftKey] ∧
    ∃ g1, runFrames 0 numCells zeroDraws [turnRightKey, turnRightKey, turnLeftKey] windowGame
        = some g1 ∧
      g1.cachedDirection = none ∧ g1.snake.directionIndex = 3 ∧
      g1.snake.getHeadPos = some (moveHead g1.snake.direction (5, 5)) ∧
      ∃ s1, windowGame.snake.prevDirection = some s1 ∧
        g1.snake.direction = s1.direction := by
  have hkeys : runningInputs 0 numCells zeroDraws
      [turnRightKey, turnRightKey, turnLeftKey] windowGame
      = [turnRightKey, turnRightKey] ++ turnLeftKey :: [] := by decide
  obtain ⟨⟨g1, hrun, hbuf, _, hhp, hlast, _⟩, _⟩ :=
    turn_buffering 0 numCells zeroDraws [turnRightKey, turnRightKey, turnLeftKey]
      windowGame 0 (5, 5) [(1, (4, 5)), (2, (3, 5))] (Or.inl rfl) (by decide) (by decide)
      (by rw [hkeys]; decide) (by decide) rfl (by decide)
      (fun h => absurd h (by decide))
  obtain ⟨⟨s1, hs1, hd, _⟩, hi⟩ :=
    (hlast [turnRightKey, turnRightKey] turnLeftKey [] hkeys
      (fun j hj => absurd hj (List.not_mem_nil j))).2 (Or.inl rfl)
      (by unfold turnsForward; decide)
  exact ⟨rfl, rfl, rfl, hkeys, g1, hrun, hbuf, hi, hhp, s1, hs1, hd⟩

end SnakeGame
